import Mathlib

/-!
Verification of the fluxlog log-line template engine (`src/fluxlog.py`).

Shallow embedding conventions:
* Python strings are `List Char` (`Str`).
* Python's dynamically typed values are the inductive `PyVal`; Python dicts
  are association lists preserving insertion order.
* Fallible code (Python exceptions: `raise`, `KeyError`, `TypeError`,
  `ValueError`, `IndexError`) is modelled with `Except String`.
* The two ANSI-stripping regular expressions of the source
  (the one in `__wrap_text`, ESC then either a single byte in 0x40..0x5A or
  0x5C..0x5F, or "[" followed by parameter bytes 0x30..0x3F, intermediate
  bytes 0x20..0x2F and a final byte 0x40..0x7E; and the one in
  `__remove_ansi`, ESC then a byte in 0x40..0x5F followed by the same
  parameter, intermediate and final parts) are embedded as deterministic
  left-to-right scanners.  This is exact: the three character classes are
  pairwise disjoint, so the greedy backtracking-free maximal-munch scan
  coincides with Python `re.sub` semantics (leftmost, non-overlapping
  matches).
* The wall clock (`datetime.now().strftime`) is an external effect; the
  engine receives the two possible timestamp renderings (`nowFull` for the
  configured format, `nowShortHM` for the narrow-terminal "%H:%M:%S"
  format) as explicit inputs.
* Recursions whose measure is not structural take an explicit fuel
  argument initialised with a sufficient bound, so that every definition
  evaluates by kernel reduction; fuel-irrelevance lemmas recover the
  natural unfolding equations.
-/

abbrev Str := List Char

def toL (s : String) : Str := s.toList

/-- Escape character 0x1b (ESC). -/
def escCh : Char := Char.ofNat 27

/-- Character class 0x40..0x5F, the second position of the regex in
`__remove_ansi`. -/
def isAtByte (c : Char) : Bool := 0x40 ≤ c.toNat && c.toNat ≤ 0x5F

/-- Character class 0x40..0x5A together with 0x5C..0x5F: the
single-character escape alternative of the regex in `__wrap_text`
(note it excludes the bracket 0x5B). -/
def isSingleByte (c : Char) : Bool :=
  (0x40 ≤ c.toNat && c.toNat ≤ 0x5A) || (0x5C ≤ c.toNat && c.toNat ≤ 0x5F)

/-- CSI parameter bytes 0x30..0x3F. -/
def isParamByte (c : Char) : Bool := 0x30 ≤ c.toNat && c.toNat ≤ 0x3F

/-- CSI intermediate bytes 0x20..0x2F. -/
def isInterByte (c : Char) : Bool := 0x20 ≤ c.toNat && c.toNat ≤ 0x2F

/-- CSI final bytes 0x40..0x7E. -/
def isFinalByte (c : Char) : Bool := 0x40 ≤ c.toNat && c.toNat ≤ 0x7E

/-- Matches the parameter-intermediate-final tail of a CSI sequence at the
head of the input, returning the number of characters consumed.  The three
classes are pairwise disjoint, so this maximal-munch scan equals the regex
semantics. -/
def csiMatch (x : Str) : Option Nat :=
  let p := x.takeWhile isParamByte
  let r1 := x.dropWhile isParamByte
  let q := r1.takeWhile isInterByte
  let r2 := r1.dropWhile isInterByte
  match r2 with
  | [] => Option.none
  | f :: _ => if isFinalByte f then some (p.length + q.length + 1) else Option.none

/-- Anchored match of the regex in `__remove_ansi`. -/
def ansiMatchRemove : Str → Option Nat
  | e :: c :: rest =>
      if e = escCh && isAtByte c then (csiMatch rest).map (fun n => n + 2)
      else Option.none
  | _ => Option.none

/-- Anchored match of the regex in `__wrap_text`. -/
def ansiMatchWrap : Str → Option Nat
  | e :: c :: rest =>
      if e = escCh then
        if isSingleByte c then some 2
        else if c = '[' then (csiMatch rest).map (fun n => n + 2)
        else Option.none
      else Option.none
  | _ => Option.none

/-- Fuelled core of the substitution scan; fuel at least the length of the
input makes it total (each step consumes one unit and at least one
character). -/
def stripWithF (m : Str → Option Nat) : Nat → Str → Str
  | _, [] => []
  | 0, s => s
  | fuel + 1, c :: cs =>
    match m (c :: cs) with
    | some n => stripWithF m fuel (cs.drop (n - 1))
    | Option.none => c :: stripWithF m fuel cs

/-- Substitution of every leftmost, non-overlapping match of `m` by the
empty string, as `re.sub(regex, "", s)` does. -/
def stripWith (m : Str → Option Nat) (s : Str) : Str := stripWithF m s.length s

theorem length_dropWhile_le (p : Char → Bool) (l : Str) :
    (l.dropWhile p).length ≤ l.length := by
  induction l with
  | nil => simp [List.dropWhile]
  | cons c cs ih =>
      simp only [List.dropWhile]
      cases p c
      · simp
      · simp; omega

theorem stripWithF_congr (m : Str → Option Nat) :
    ∀ f g s, s.length ≤ f → s.length ≤ g → stripWithF m f s = stripWithF m g s := by
  intro f
  induction f with
  | zero =>
      intro g s hf _
      cases s with
      | nil => cases g <;> rfl
      | cons c cs => simp at hf
  | succ f ih =>
      intro g s hf hg
      cases s with
      | nil => cases g <;> rfl
      | cons c cs =>
          cases g with
          | zero => simp at hg
          | succ g =>
              simp only [stripWithF]
              cases hm : m (c :: cs) with
              | none =>
                  have := ih g cs (by simp at hf; omega) (by simp at hg; omega)
                  simp [this]
              | some n =>
                  have hd := List.length_drop (n - 1) cs
                  have := ih g (cs.drop (n - 1))
                    (by simp at hf; omega) (by simp at hg; omega)
                  simp [this]

theorem stripWith_nil (m : Str → Option Nat) : stripWith m [] = [] := rfl

theorem stripWith_cons (m : Str → Option Nat) (c : Char) (cs : Str) :
    stripWith m (c :: cs) =
      match m (c :: cs) with
      | some n => stripWith m (cs.drop (n - 1))
      | Option.none => c :: stripWith m cs := by
  show stripWithF m (cs.length + 1) (c :: cs) = _
  simp only [stripWithF]
  cases hm : m (c :: cs) with
  | none =>
      simp [stripWith]
  | some n =>
      have hd := List.length_drop (n - 1) cs
      simp only [stripWith]
      exact stripWithF_congr m cs.length (cs.drop (n - 1)).length (cs.drop (n - 1)) (by omega) le_rfl

/-- Function `FluxLogger.__remove_ansi`. -/
def remove_ansi (s : Str) : Str := stripWith ansiMatchRemove s

/-- ANSI deletion in `__wrap_text` (its `visible_length` helper measures
the result's length). -/
def stripWrap (s : Str) : Str := stripWith ansiMatchWrap s

def visibleLen (s : Str) : Nat := (stripWrap s).length

/-! ## The Python value model -/

inductive PyVal where
  | none
  | bool (b : Bool)
  | int (n : Int)
  /-- floats appear in the source only in `isinstance` primitive checks;
  they are carried by their display text. -/
  | float (r : Str)
  | str (s : Str)
  | list (xs : List PyVal)
  | tuple (xs : List PyVal)
  /-- a dict as an insertion-ordered association list; keys are arbitrary
  values, as in Python. -/
  | dict (kvs : List (PyVal × PyVal))
  /-- any other object, carried by its `repr` text. -/
  | obj (r : Str)

/-- Result of `type(v)` up to the distinctions the source's
`return_values` makes. -/
inductive PType where
  | none | bool | int | float | str | list | tuple | dict | obj
deriving DecidableEq

def ptype : PyVal → PType
  | .none => .none
  | .bool _ => .bool
  | .int _ => .int
  | .float _ => .float
  | .str _ => .str
  | .list _ => .list
  | .tuple _ => .tuple
  | .dict _ => .dict
  | .obj _ => .obj

def strV (s : String) : PyVal := .str (toL s)

/-- Comparison of a value against a string literal, as the source compares
parameter names and segment keys.  A Python equality between a non-string
and a string is false for every value occurring here. -/
def isStrEq (v : PyVal) (s : Str) : Bool :=
  match v with
  | .str t => t = s
  | _ => false

/-- Dict lookup with a string key (all dicts the engine reads are keyed by
strings; a non-string key never equals a string key). -/
def dictGetS (kvs : List (PyVal × PyVal)) (k : Str) : Option PyVal :=
  match kvs with
  | [] => Option.none
  | kv :: rest => if isStrEq kv.1 k then some kv.2 else dictGetS rest k

/-- Python's `d.get(key, default)` pattern where `key` is an arbitrary
value and `d` is string-keyed. -/
def pyDictGet (kvs : List (PyVal × PyVal)) (k : PyVal) : Option PyVal :=
  match k with
  | .str s => dictGetS kvs s
  | _ => Option.none

/-! ## Method `FluxLogger.__sanitize_unsafe_objects`

The source checks, in order: `isinstance(variable, (str, int, float,
bool))` (returned unchanged), `list`, `dict` (values sanitized, keys kept
verbatim), `tuple`, and everything else becomes the tagged string
`repr_id + repr(variable)`.  Note that `None` is absent from the primitive
tuple, so it reaches the final branch. -/

mutual

def sanitize_unsafe_objects (tok : Str) : PyVal → PyVal
  | .str s => .str s
  | .int n => .int n
  | .float r => .float r
  | .bool b => .bool b
  | .list xs => .list (sanitizeElems tok xs)
  | .dict kvs => .dict (sanitizeValues tok kvs)
  | .tuple xs => .tuple (sanitizeElems tok xs)
  | .none => .str (tok ++ toL "None")
  | .obj r => .str (tok ++ r)

def sanitizeElems (tok : Str) : List PyVal → List PyVal
  | [] => []
  | x :: xs => sanitize_unsafe_objects tok x :: sanitizeElems tok xs

def sanitizeValues (tok : Str) : List (PyVal × PyVal) → List (PyVal × PyVal)
  | [] => []
  | kv :: kvs => (kv.1, sanitize_unsafe_objects tok kv.2) :: sanitizeValues tok kvs

end

/-! ## Method `FluxLogger.__wrap_text` -/

/-- Python's whitespace class on the ASCII range (the source's strings are
ASCII). -/
def pyIsSpace (c : Char) : Bool :=
  c = ' ' || c = '\t' || c = '\n' || c = Char.ofNat 11 || c = Char.ofNat 12 || c = '\r'

/-- Result of `text.split("\n")`: keeps empty pieces, always nonempty. -/
def splitNl : Str → List Str
  | [] => [[]]
  | c :: cs =>
      if c = '\n' then [] :: splitNl cs
      else
        match splitNl cs with
        | h :: t => (c :: h) :: t
        | [] => [[c]]

/-- Fuelled core of the tokenizer. -/
def tokenizeF : Nat → Str → List Str
  | _, [] => []
  | 0, _ => []
  | fuel + 1, c :: cs =>
      if pyIsSpace c then tokenizeF fuel cs
      else
        let r1 := (c :: cs).dropWhile (fun x => !pyIsSpace x)
        ((c :: cs).takeWhile (fun x => !pyIsSpace x) ++ r1.takeWhile pyIsSpace)
          :: tokenizeF fuel (r1.dropWhile pyIsSpace)

/-- The token scan `re.findall` performs in `__wrap_text`: runs of
non-space characters, each with its trailing whitespace attached; leading
whitespace is skipped. -/
def tokenize (s : Str) : List Str := tokenizeF s.length s

theorem tokenizeF_congr :
    ∀ f g s, s.length ≤ f → s.length ≤ g → tokenizeF f s = tokenizeF g s := by
  intro f
  induction f with
  | zero =>
      intro g s hf _
      cases s with
      | nil => cases g <;> rfl
      | cons c cs => simp at hf
  | succ f ih =>
      intro g s hf hg
      cases s with
      | nil => cases g <;> rfl
      | cons c cs =>
          cases g with
          | zero => simp at hg
          | succ g =>
              simp only [tokenizeF]
              by_cases hc : pyIsSpace c
              · simp only [hc, if_true]
                exact ih g cs (by simp at hf; omega) (by simp at hg; omega)
              · simp only [hc, if_false]
                have h1 : (c :: cs).dropWhile (fun x => !pyIsSpace x)
                    = cs.dropWhile (fun x => !pyIsSpace x) := by
                  simp [List.dropWhile, hc]
                have h2 := length_dropWhile_le (fun x => !pyIsSpace x) cs
                have h3 := length_dropWhile_le pyIsSpace
                  ((c :: cs).dropWhile (fun x => !pyIsSpace x))
                rw [h1] at h3
                have := ih g (((c :: cs).dropWhile (fun x => !pyIsSpace x)).dropWhile pyIsSpace)
                  (by rw [h1]; simp at hf ⊢; omega) (by rw [h1]; simp at hg ⊢; omega)
                simp [this]

theorem tokenize_nil : tokenize [] = [] := rfl

theorem tokenize_cons (c : Char) (cs : Str) :
    tokenize (c :: cs) =
      if pyIsSpace c then tokenize cs
      else
        ((c :: cs).takeWhile (fun x => !pyIsSpace x)
            ++ ((c :: cs).dropWhile (fun x => !pyIsSpace x)).takeWhile pyIsSpace)
          :: tokenize (((c :: cs).dropWhile (fun x => !pyIsSpace x)).dropWhile pyIsSpace) := by
  show tokenizeF (cs.length + 1) (c :: cs) = _
  simp only [tokenizeF]
  by_cases hc : pyIsSpace c
  · simp only [hc, if_true]
    exact tokenizeF_congr cs.length cs.length cs le_rfl le_rfl
  · simp only [hc, if_false]
    have h1 : (c :: cs).dropWhile (fun x => !pyIsSpace x)
        = cs.dropWhile (fun x => !pyIsSpace x) := by
      simp [List.dropWhile, hc]
    have h2 := length_dropWhile_le (fun x => !pyIsSpace x) cs
    have h3 := length_dropWhile_le pyIsSpace ((c :: cs).dropWhile (fun x => !pyIsSpace x))
    rw [h1] at h3
    have := tokenizeF_congr cs.length
      ((((c :: cs).dropWhile (fun x => !pyIsSpace x)).dropWhile pyIsSpace)).length
      (((c :: cs).dropWhile (fun x => !pyIsSpace x)).dropWhile pyIsSpace)
      (by rw [h1]; omega) le_rfl
    simp only [this]
    rfl

/-- Result of `s.rstrip()`. -/
def pyRstrip (s : Str) : Str := (s.reverse.dropWhile pyIsSpace).reverse

/-- The inner word loop of `__wrap_text`: `cur` is `current_line`, `cv` is
`current_line_visible_length`.  Width is an `Int` because the caller passes
`terminal_width - prompt_length`, which may be negative. -/
def wrapTokens (width : Int) : List Str → Str → Nat → List Str
  | [], cur, _ => if cur.isEmpty then [] else [pyRstrip cur]
  | w :: ws, cur, cv =>
      let wl := visibleLen w
      if ((cv + wl : Nat) : Int) > width then
        (if cur.isEmpty then [] else [pyRstrip cur]) ++ wrapTokens width ws w wl
      else
        wrapTokens width ws (cur ++ w) (cv + wl)

/-- Method `FluxLogger.__wrap_text(text, width)`. -/
def wrap_text (text : Str) (width : Int) : List Str :=
  ((splitNl text).map (fun line => wrapTokens width (tokenize line) [] 0)).flatten


/-! ## Dynamic-typing helpers for the template engine -/

def pyTruthy : PyVal → Bool
  | .none => false
  | .bool b => b
  | .int n => decide (n ≠ 0)
  | .float r => decide (r ≠ toL "0.0")
  | .str s => !s.isEmpty
  | .list xs => !xs.isEmpty
  | .tuple xs => !xs.isEmpty
  | .dict kvs => !kvs.isEmpty
  | .obj _ => true

/-- Coercion used where Python arithmetic and string methods require an
int; a Python `bool` is an `int` subtype.  Floats are carried opaquely, so
a float here errs, as the subsequent `str.ljust` and friends would. -/
def asInt : PyVal → Except String Int
  | .int n => .ok n
  | .bool b => .ok (if b then 1 else 0)
  | _ => .error "TypeError: an integer is required"

def asStr : PyVal → Except String Str
  | .str s => .ok s
  | _ => .error "TypeError: a string is required"

def asDict : PyVal → Except String (List (PyVal × PyVal))
  | .dict kvs => .ok kvs
  | _ => .error "AttributeError: not a dict"

def asList : PyVal → Except String (List PyVal)
  | .list xs => .ok xs
  | _ => .error "TypeError: not a list"

def mapStrList : List PyVal → Except String (List Str)
  | [] => .ok []
  | x :: xs => do
      let s ← asStr x
      let r ← mapStrList xs
      .ok (s :: r)

/-- Indexing `d[key]` with a string key: `KeyError` if absent. -/
def dictIndex (kvs : List (PyVal × PyVal)) (k : String) : Except String PyVal :=
  match dictGetS kvs (toL k) with
  | some v => .ok v
  | Option.none => .error "KeyError"

/-- Updates `d[key] = v` in place (key order preserved). -/
def dictSetS (kvs : List (PyVal × PyVal)) (k : Str) (v : PyVal) : List (PyVal × PyVal) :=
  match kvs with
  | [] => [(.str k, v)]
  | kv :: rest => if isStrEq kv.1 k then (kv.1, v) :: rest else kv :: dictSetS rest k v

/-! ## Decimal rendering (`str` of ints, and the f-string building the RGB
escape) -/

def digitChar (d : Nat) : Char :=
  match d % 10 with
  | 0 => '0' | 1 => '1' | 2 => '2' | 3 => '3' | 4 => '4'
  | 5 => '5' | 6 => '6' | 7 => '7' | 8 => '8' | _ => '9'

def natDigitsF : Nat → Nat → Str → Str
  | 0, _, acc => acc
  | f + 1, n, acc =>
      if n < 10 then digitChar n :: acc
      else natDigitsF f (n / 10) (digitChar (n % 10) :: acc)

def natDigits (n : Nat) : Str := natDigitsF (n + 1) n []

def intStr (i : Int) : Str :=
  if i < 0 then '-' :: natDigits (-i).toNat else natDigits i.toNat

/- The next three functions give `repr` of a value, as far as the engine
can observe it.  String escaping inside quotes is elided: the engine only
ever reprs plain ASCII configuration text. -/
mutual

def pyRepr : PyVal → Str
  | .none => toL "None"
  | .bool b => if b then toL "True" else toL "False"
  | .int n => intStr n
  | .float r => r
  | .str s => Char.ofNat 39 :: s ++ [Char.ofNat 39]
  | .list xs => '[' :: pyReprElems xs ++ [']']
  | .tuple [x] => '(' :: pyRepr x ++ [',', ')']
  | .tuple xs => '(' :: pyReprElems xs ++ [')']
  | .dict kvs => Char.ofNat 123 :: pyReprKVs kvs ++ [Char.ofNat 125]
  | .obj r => r
termination_by v => sizeOf v

def pyReprElems : List PyVal → Str
  | [] => []
  | [x] => pyRepr x
  | x :: xs => pyRepr x ++ toL ", " ++ pyReprElems xs
termination_by xs => sizeOf xs

def pyReprKVs : List (PyVal × PyVal) → Str
  | [] => []
  | [(k, v)] => pyRepr k ++ toL ": " ++ pyRepr v
  | (k, v) :: kvs => pyRepr k ++ toL ": " ++ pyRepr v ++ toL ", " ++ pyReprKVs kvs
termination_by kvs => sizeOf kvs

end

/-- Python's `str(v)`. -/
def pyStr : PyVal → Str
  | .str s => s
  | .none => toL "None"
  | .bool b => if b then toL "True" else toL "False"
  | .int n => intStr n
  | .float r => r
  | .obj r => r
  | v => pyRepr v

/-! ## Python string primitives used by the directives -/

def strRepeatN (s : Str) : Nat → Str
  | 0 => []
  | n + 1 => s ++ strRepeatN s n

/-- Python `s * n` (negative counts give the empty string). -/
def strRepeat (s : Str) (i : Int) : Str := strRepeatN s i.toNat

/-- Python slice `s[:stop]` with an arbitrary (possibly negative) stop. -/
def pySliceTo (stop : Int) (s : Str) : Str :=
  if stop < 0 then s.take (s.length + stop).toNat else s.take stop.toNat

/-- Python slice `s[start:]` with an arbitrary (possibly negative) start. -/
def pySliceFrom (start : Int) (s : Str) : Str :=
  if start < 0 then s.drop (s.length + start).toNat else s.drop start.toNat

def pyLjust (s : Str) (w : Int) (fc : Char) : Str :=
  if (s.length : Int) < w then s ++ List.replicate (w - s.length).toNat fc else s

def pyRjust (s : Str) (w : Int) (fc : Char) : Str :=
  if (s.length : Int) < w then List.replicate (w - s.length).toNat fc ++ s else s

/-- Python `s.center(w, fc)`; the extra fill character of an odd margin
goes left exactly when margin and width are both odd (CPython's
`marg / 2 + (marg & width & 1)`). -/
def pyCenter (s : Str) (w : Int) (fc : Char) : Str :=
  if w ≤ (s.length : Int) then s
  else
    let marg := (w - s.length).toNat
    let lft := marg / 2 + (if marg % 2 = 1 && w.toNat % 2 = 1 then 1 else 0)
    List.replicate lft fc ++ s ++ List.replicate (marg - lft) fc

/-- The `ljust`/`rjust`/`center` fill-character argument must be exactly
one character. -/
def fillCheck (fcs : Str) : Except String Char :=
  match fcs with
  | [f] => .ok f
  | _ => .error "TypeError: the fill character must be exactly one character long"

def pyUpper (s : Str) : Str := s.map Char.toUpper

def pyLower (s : Str) : Str := s.map Char.toLower

def pyCapitalize : Str → Str
  | [] => []
  | c :: r => Char.toUpper c :: r.map Char.toLower

def pySwapcase (s : Str) : Str :=
  s.map (fun c => if c.isUpper then c.toLower else if c.isLower then c.toUpper else c)

def pyTitleGo : Bool → Str → Str
  | _, [] => []
  | prev, c :: r =>
      (if c.isAlpha && !prev then c.toUpper else if c.isAlpha then c.toLower else c)
        :: pyTitleGo c.isAlpha r

def pyTitle (s : Str) : Str := pyTitleGo false s

/-- Python `int(s)`: surrounding whitespace and an optional sign (digit
group separators are not needed by any template). -/
def digitsVal : Str → Except String Int
  | [] => .error "ValueError: invalid literal for int"
  | ds =>
      if ds.all (fun c => c.isDigit) then
        .ok (ds.foldl (fun acc c => acc * 10 + ((c.toNat - 48 : Nat) : Int)) 0)
      else .error "ValueError: invalid literal for int"

def pyParseInt (s : Str) : Except String Int :=
  let t := ((s.dropWhile pyIsSpace).reverse.dropWhile pyIsSpace).reverse
  match t with
  | '-' :: ds => do let n ← digitsVal ds; .ok (-n)
  | '+' :: ds => digitsVal ds
  | ds => digitsVal ds

/-! ## `return_values` (the directive default-merging helper) -/

/-- The `setdefault` loop: defaults (string-keyed in every call site) are
appended when their key is absent. -/
def mergeDefaults (kvs : List (PyVal × PyVal)) : List (PyVal × PyVal) → List (PyVal × PyVal)
  | [] => kvs
  | (dk, dv) :: rest =>
      match dk with
      | .str s =>
          if (dictGetS kvs s).isSome then mergeDefaults kvs rest
          else mergeDefaults (kvs ++ [(dk, dv)]) rest
      | _ => mergeDefaults (kvs ++ [(dk, dv)]) rest

/-- The nested helper `return_values(value, default)` of
`__parse_log_line`: raises on a type mismatch, merges dict defaults,
substitutes the default for an empty string. -/
def return_values (value default : PyVal) : Except String PyVal :=
  if ptype value ≠ ptype default then
    .error "Exception: value must be of the type of the default"
  else
    let v1 :=
      match value, default with
      | .dict kvs, .dict dkvs => PyVal.dict (mergeDefaults kvs dkvs)
      | _, _ => value
    match v1 with
    | .str s => if s.length < 1 then .ok default else .ok v1
    | _ => .ok v1

/-! ## Color machinery -/

/-- An SGR escape with a numeric code, e.g. colorama's color constants. -/
def ansiSgr (n : Nat) : Str := escCh :: '[' :: (natDigits n ++ ['m'])

def foreTable : List (Str × Str) :=
  [(toL "BLACK", ansiSgr 30), (toL "RED", ansiSgr 31), (toL "GREEN", ansiSgr 32),
   (toL "YELLOW", ansiSgr 33), (toL "BLUE", ansiSgr 34), (toL "MAGENTA", ansiSgr 35),
   (toL "CYAN", ansiSgr 36), (toL "WHITE", ansiSgr 37), (toL "RESET", ansiSgr 39),
   (toL "LIGHTBLACK_EX", ansiSgr 90), (toL "LIGHTRED_EX", ansiSgr 91),
   (toL "LIGHTGREEN_EX", ansiSgr 92), (toL "LIGHTYELLOW_EX", ansiSgr 93),
   (toL "LIGHTBLUE_EX", ansiSgr 94), (toL "LIGHTMAGENTA_EX", ansiSgr 95),
   (toL "LIGHTCYAN_EX", ansiSgr 96), (toL "LIGHTWHITE_EX", ansiSgr 97)]

def backTable : List (Str × Str) :=
  [(toL "BLACK", ansiSgr 40), (toL "RED", ansiSgr 41), (toL "GREEN", ansiSgr 42),
   (toL "YELLOW", ansiSgr 43), (toL "BLUE", ansiSgr 44), (toL "MAGENTA", ansiSgr 45),
   (toL "CYAN", ansiSgr 46), (toL "WHITE", ansiSgr 47), (toL "RESET", ansiSgr 49),
   (toL "LIGHTBLACK_EX", ansiSgr 100), (toL "LIGHTRED_EX", ansiSgr 101),
   (toL "LIGHTGREEN_EX", ansiSgr 102), (toL "LIGHTYELLOW_EX", ansiSgr 103),
   (toL "LIGHTBLUE_EX", ansiSgr 104), (toL "LIGHTMAGENTA_EX", ansiSgr 105),
   (toL "LIGHTCYAN_EX", ansiSgr 106), (toL "LIGHTWHITE_EX", ansiSgr 107)]

/-- The `getattr(Fore, name.upper(), "")` pattern. -/
def getattrColor (table : List (Str × Str)) (name : Str) : Str :=
  match table.find? (fun p => p.1 == name) with
  | some p => p.2
  | Option.none => []

/-- The quantization `int(x / 255 * 5)` of `rgb_to_ansi`.  `Int.div`
truncates toward zero exactly as Python `int()` does; on the components'
documented domain 0..255 the float expression `x / 255 * 5` incurs no
rounding across an integer boundary, so the integer quotient is exact. -/
def colorQuant (x : Int) : Int := Int.tdiv (x * 5) 255

/-- The palette index computed by the nested `rgb_to_ansi`. -/
def colorCode (r g b : Int) : Int :=
  16 + 36 * colorQuant r + 6 * colorQuant g + colorQuant b

/-- The nested helper `rgb_to_ansi(r, g, b, fg)` of `__parse_log_line`. -/
def rgb_to_ansi (r g b : Int) (fg : Bool) : Str :=
  escCh :: '[' :: (toL (if fg then "38" else "48") ++ toL ";5;"
    ++ intStr (colorCode r g b) ++ ['m'])

/-- One side (foreground or background) of the nested `colorize` helper. -/
def sideCode (fg : Bool) (v : Option PyVal) : Except String Str :=
  match v with
  | some (.tuple [a, b, c]) => do
      let r ← asInt a
      let g ← asInt b
      let bl ← asInt c
      .ok (rgb_to_ansi r g bl fg)
  | some (.str s) => .ok (getattrColor (if fg then foreTable else backTable) (pyUpper s))
  | _ => .ok []

/-- The nested helper `colorize(value, color, style)` of
`__parse_log_line`: foreground and background codes, then the style codes
in order, then the value, closed by `Style.RESET_ALL`. -/
def colorize (value : Str) (color : List (PyVal × PyVal)) (style : List Str) :
    Except String Str := do
  let fg ← sideCode true (dictGetS color (toL "foreground"))
  let bg ← sideCode false (dictGetS color (toL "background"))
  .ok (fg ++ bg ++ style.flatten ++ value ++ ansiSgr 0)

/-! ## The directive blocks of the parameter loop -/

def applyAlign (al : Str) (w : Int) (fcs : Str) (value : Str) : Except String Str :=
  if al = toL "left" || al = toL "l" then do
    let f ← fillCheck fcs
    .ok (pyLjust value w f)
  else if al = toL "right" || al = toL "r" then do
    let f ← fillCheck fcs
    .ok (pyRjust value w f)
  else if al = toL "center" || al = toL "c" then do
    let f ← fillCheck fcs
    .ok (pyCenter value w f)
  else .ok value

def alignBlock (pv : PyVal) (value : Str) : Except String Str := do
  let m ← return_values pv (.dict
    [(strV "alignment", strV "left"), (strV "width", .int 10), (strV "fillchar", strV " ")])
  let kvs ← asDict m
  let w0 ← asInt (← dictIndex kvs "width")
  let w := w0 + ((value.length : Int) - ((remove_ansi value).length : Int))
  let alv ← asStr (← dictIndex kvs "alignment")
  let fcv ← asStr (← dictIndex kvs "fillchar")
  applyAlign (pyLower alv) w fcv value

def caseBlock (pv : PyVal) (value : Str) : Except String Str := do
  let m ← return_values pv (strV "upper")
  let s ← asStr m
  let sl := pyLower s
  if sl = toL "upper" || sl = toL "u" then .ok (pyUpper value)
  else if sl = toL "lower" || sl = toL "l" then .ok (pyLower value)
  else if sl = toL "capitalize" || sl = toL "cap" || sl = toL "c" then .ok (pyCapitalize value)
  else if sl = toL "swapcase" || sl = toL "swap" || sl = toL "s" then .ok (pySwapcase value)
  else if sl = toL "title" || sl = toL "t" then .ok (pyTitle value)
  else .ok value

def filterNorm (cs : Bool) (s : Str) : Str := if cs then s else pyLower s

def prefixOf : Str → Str → Bool
  | [], _ => true
  | _ :: _, [] => false
  | a :: as, b :: bs => a = b && prefixOf as bs

/-- Python's substring test `pat in s` (an empty pattern occurs in every
string). -/
def isSubstr (pat : Str) : Str → Bool
  | [] => prefixOf pat []
  | c :: rest => prefixOf pat (c :: rest) || isSubstr pat rest

/-- The `mode="exclude"` loop: any occurring item replaces the whole
value (subsequent items are tested against the evolving value). -/
def filter_exclude (cs : Bool) (items : List Str) (repl : Str) (value : Str) : Str :=
  items.foldl
    (fun v it => if isSubstr (filterNorm cs it) (filterNorm cs v) then repl else v) value

/-- The `mode="include"` loop: any item that does not occur in the
(evolving) value replaces the whole value. -/
def filter_include (cs : Bool) (items : List Str) (repl : Str) (value : Str) : Str :=
  items.foldl
    (fun v it => if isSubstr (filterNorm cs it) (filterNorm cs v) then v else repl) value

def filterBlock (pv : PyVal) (value : Str) : Except String Str := do
  let m ← return_values pv (.dict
    [(strV "mode", strV "exclude"), (strV "items", .list []),
     (strV "replace", strV ""), (strV "case_sensitive", .bool false)])
  let kvs ← asDict m
  let mo ← asStr (← dictIndex kvs "mode")
  let itemsV ← dictIndex kvs "items"
  let repl ← asStr (← dictIndex kvs "replace")
  let csFlag := pyTruthy (← dictIndex kvs "case_sensitive")
  let ml := pyLower mo
  let v1 ←
    if ml = toL "exclude" || ml = toL "e" then do
      let its ← mapStrList (← asList itemsV)
      (Except.ok (filter_exclude csFlag its repl value))
    else .ok value
  if ml = toL "include" || ml = toL "i" then do
    let its ← mapStrList (← asList itemsV)
    (Except.ok (filter_include csFlag its repl v1))
  else .ok v1

def affixBlock (pv : PyVal) (value : Str) : Except String Str := do
  let m ← return_values pv (.dict [(strV "prefix", strV ""), (strV "suffix", strV "")])
  let kvs ← asDict m
  let pfx ← asStr (← dictIndex kvs "prefix")
  let sfx ← asStr (← dictIndex kvs "suffix")
  let v1 := if pfx.length > 0 then pfx ++ value else value
  .ok (if sfx.length > 0 then v1 ++ sfx else v1)

def truncateBlock (pv : PyVal) (value : Str) : Except String Str := do
  let m ← return_values pv (.dict
    [(strV "width", .int 10), (strV "ending", strV "…"), (strV "position", strV "end")])
  let kvs ← asDict m
  let w0 ← asInt (← dictIndex kvs "width")
  let w := w0 + ((value.length : Int) - ((remove_ansi value).length : Int))
  let e ← asStr (← dictIndex kvs "ending")
  let pos ← asStr (← dictIndex kvs "position")
  if (value.length : Int) > w then
    if pos = toL "end" || pos = toL "right" || pos = toL "e" || pos = toL "r" then
      .ok (pySliceTo (w - e.length) value ++ e)
    else if pos = toL "center" || pos = toL "middle" || pos = toL "mid"
        || pos = toL "m" || pos = toL "c" then
      let lw := Int.fdiv (w - e.length) 2
      let rw := (w - e.length) - lw
      .ok (pySliceTo lw value ++ e ++ pySliceFrom (-rw) value)
    else if pos = toL "beginning" || pos = toL "start" || pos = toL "left"
        || pos = toL "b" || pos = toL "s" || pos = toL "l" then
      .ok (e ++ pySliceFrom (-(w - e.length)) value)
    else .ok value
  else .ok value

/-- The `visible` directive: a plain bool, a string `">N"` or `"<N"`
compared against the live terminal width, or a bare int meaning at-least.
Any other shape leaves the flag unchanged. -/
def visibleBlock (pv : PyVal) (width : Int) (visible : Bool) : Except String Bool :=
  match pv with
  | .bool b => .ok b
  | .str s =>
      if s.head? = some '>' then do
        let n ← pyParseInt s.tail
        .ok (decide (width ≥ n))
      else if s.head? = some '<' then do
        let n ← pyParseInt s.tail
        .ok (decide (width < n))
      else .ok visible
  | .int n => .ok (decide (width ≥ n))
  | _ => .ok visible

def lmapGet (lvl : Str) : Str :=
  if lvl = toL "info" then toL "white"
  else if lvl = toL "debug" then toL "blue"
  else if lvl = toL "success" then toL "green"
  else if lvl = toL "warning" then toL "yellow"
  else if lvl = toL "error" then toL "red"
  else if lvl = toL "critical" then toL "magenta"
  else toL "white"

def cmapFor (lvl : Str) : List (PyVal × PyVal) :=
  [(strV "timestamp", strV "green"), (strV "filename", strV "magenta"),
   (strV "wrapfunc", strV "yellow"), (strV "linenum", strV "cyan"),
   (strV "level", .str (lmapGet lvl))]

/-- The `color` directive: replaces the running color dict; the literal
`"dynamic"` foreground resolves through the per-segment-key table (a
`KeyError` for keys outside it). -/
def colorBlock (lvl : Str) (segVal : PyVal) (pv : PyVal) :
    Except String (List (PyVal × PyVal)) := do
  let m ← return_values pv (.dict
    [(strV "foreground", .tuple []), (strV "background", .tuple [])])
  let kvs ← asDict m
  let fg ← dictIndex kvs "foreground"
  if isStrEq fg (toL "dynamic") then
    match pyDictGet (cmapFor lvl) segVal with
    | some c => .ok (dictSetS kvs (toL "foreground") c)
    | Option.none => .error "KeyError"
  else .ok kvs

def styleBlock (pv : PyVal) (style : List Str) : Except String (List Str) := do
  let m ← return_values pv (.dict
    [(strV "bold", .bool false), (strV "italic", .bool false),
     (strV "underline", .bool false), (strV "blink", .bool false),
     (strV "reverse", .bool false)])
  let kvs ← asDict m
  let b ← dictIndex kvs "bold"
  let i ← dictIndex kvs "italic"
  let u ← dictIndex kvs "underline"
  let bl ← dictIndex kvs "blink"
  let rv ← dictIndex kvs "reverse"
  .ok (style ++ (if pyTruthy b then [ansiSgr 1] else [])
    ++ (if pyTruthy i then [ansiSgr 3] else [])
    ++ (if pyTruthy u then [ansiSgr 4] else [])
    ++ (if pyTruthy bl then [ansiSgr 5] else [])
    ++ (if pyTruthy rv then [ansiSgr 7] else []))

def padBlock (pv : PyVal) (value : Str) : Except String Str := do
  let m ← return_values pv (.dict
    [(strV "left", .int 0), (strV "right", .int 0), (strV "fillchar", strV " ")])
  let kvs ← asDict m
  let l ← asInt (← dictIndex kvs "left")
  let r ← asInt (← dictIndex kvs "right")
  let fc ← asStr (← dictIndex kvs "fillchar")
  .ok (strRepeat fc l ++ value ++ strRepeat fc r)

def repeatBlock (pv : PyVal) (value : Str) : Except String Str := do
  let m ← return_values pv (.dict [(strV "count", .int 1)])
  let kvs ← asDict m
  let c ← asInt (← dictIndex kvs "count")
  .ok (strRepeat value c)

/-- The `if` directive.  Returns the parameter dicts to splice into the
remaining parameter sequence right after the current position. -/
def ifBlock (pv : PyVal) (width : Int) : Except String (List PyVal) := do
  let m ← return_values pv (.dict
    [(strV "condition", .dict []), (strV "action", .dict [])])
  let kvs ← asDict m
  let cond ← asDict (← dictIndex kvs "condition")
  let condType := (dictGetS cond (toL "type")).getD (strV "")
  let ready ←
    if isStrEq condType (toL "breakpoint") then do
      let bp := (dictGetS cond (toL "value")).getD (strV "")
      let bpm ← return_values bp (.dict [(strV "min", .int 0), (strV "max", .int 9999)])
      let bkvs ← asDict bpm
      let mn ← asInt (← dictIndex bkvs "min")
      let mx ← asInt (← dictIndex bkvs "max")
      (Except.ok (decide (width ≥ mn) && decide (width < mx)))
    else .ok false
  if ready then do
    let act ← asDict (← dictIndex kvs "action")
    let actType := (dictGetS act (toL "type")).getD (strV "")
    if isStrEq actType (toL "parameters") then do
      let av := (dictGetS act (toL "value")).getD (.dict [])
      let avk ← asDict av
      .ok (avk.map (fun kv => PyVal.dict [kv]))
    else .ok []
  else .ok []

/-! ## The parameter loop of `__parse_log_line` -/

/-- Dispatch on the parameter's single key.  An unrecognized key is a
no-op (none of the source's
`if pname == ...` tests fire). -/
def dispatchParam (lvl : Str) (segVal : PyVal) (width : Int) (pname pvalue : PyVal)
    (value : Str) (visible : Bool) (color : List (PyVal × PyVal)) (style : List Str) :
    Except String (Str × Bool × List (PyVal × PyVal) × List Str × List PyVal) :=
  if isStrEq pname (toL "align") then
    match alignBlock pvalue value with
    | .ok v => .ok (v, visible, color, style, [])
    | .error e => .error e
  else if isStrEq pname (toL "case") then
    match caseBlock pvalue value with
    | .ok v => .ok (v, visible, color, style, [])
    | .error e => .error e
  else if isStrEq pname (toL "filter") then
    match filterBlock pvalue value with
    | .ok v => .ok (v, visible, color, style, [])
    | .error e => .error e
  else if isStrEq pname (toL "affix") then
    match affixBlock pvalue value with
    | .ok v => .ok (v, visible, color, style, [])
    | .error e => .error e
  else if isStrEq pname (toL "truncate") then
    match truncateBlock pvalue value with
    | .ok v => .ok (v, visible, color, style, [])
    | .error e => .error e
  else if isStrEq pname (toL "visible") then
    match visibleBlock pvalue width visible with
    | .ok b => .ok (value, b, color, style, [])
    | .error e => .error e
  else if isStrEq pname (toL "color") then
    match colorBlock lvl segVal pvalue with
    | .ok c => .ok (value, visible, c, style, [])
    | .error e => .error e
  else if isStrEq pname (toL "style") then
    match styleBlock pvalue style with
    | .ok st => .ok (value, visible, color, st, [])
    | .error e => .error e
  else if isStrEq pname (toL "pad") then
    match padBlock pvalue value with
    | .ok v => .ok (v, visible, color, style, [])
    | .error e => .error e
  else if isStrEq pname (toL "repeat") then
    match repeatBlock pvalue value with
    | .ok v => .ok (v, visible, color, style, [])
    | .error e => .error e
  else if isStrEq pname (toL "if") then
    match ifBlock pvalue width with
    | .ok ins => .ok (value, visible, color, style, ins)
    | .error e => .error e
  else .ok (value, visible, color, style, [])

/-- One iteration of the parameter loop: the parameter must be a dict of
exactly one entry; its key selects the directive. -/
def applyOneParam (lvl : Str) (segVal : PyVal) (width : Int) (parameter : PyVal)
    (value : Str) (visible : Bool) (color : List (PyVal × PyVal)) (style : List Str) :
    Except String (Str × Bool × List (PyVal × PyVal) × List Str × List PyVal) := do
  let kvs ← asDict parameter
  if kvs.length > 1 then .error "Exception: parameter is longer than length of 1"
  else
    match kvs with
    | [] => .error "IndexError: list index out of range"
    | (pname, pvalue) :: _ =>
        dispatchParam lvl segVal width pname pvalue value visible color style

/-- Inserting the `if`-action's parameters immediately after position
`i` (the source performs successive `parameters.insert(i + j + 1, ...)`,
which amounts to splicing the list in order at `i + 1`). -/
def spliceAt (i : Nat) (ins : List PyVal) (params : List PyVal) : List PyVal :=
  params.take i ++ ins ++ params.drop i

/-- The `for parameter in parameters` loop, index-faithful: Python's list
iterator re-reads the (mutated) list at each step, so freshly spliced
parameters are visited in the same pass.  Fuel bounds the number of
iterations (a template whose `if` directives keep reinserting themselves
diverges in the source; such runs are reported as errors here). -/
def applyParams (lvl : Str) (segVal : PyVal) (width : Int) :
    Nat → List PyVal → Nat → Str → Bool → List (PyVal × PyVal) → List Str →
    Except String (Str × Bool × List (PyVal × PyVal) × List Str)
  | 0, _, _, _, _, _, _ => .error "fuel exhausted"
  | fuel + 1, params, i, value, visible, color, style =>
      match params.get? i with
      | Option.none => .ok (value, visible, color, style)
      | some parameter =>
          match applyOneParam lvl segVal width parameter value visible color style with
          | .error e => .error e
          | .ok (v, vis, col, sty, ins) =>
              applyParams lvl segVal width fuel (spliceAt (i + 1) ins params) (i + 1)
                v vis col sty

/-! ## Segment processing and the full pass -/

/-- End of the segment body: blank an invisible value, account the prompt
length (the timestamp key always counts the un-blanked timestamp of the
current width tier; every other segment counts the ANSI-stripped emitted
value), and colorize.  Besides the emitted text and the length
contribution, the final color dict is returned for inspection. -/
def finishSegment (segVal : PyVal) (width : Int) (nowFull nowShortHM : Str)
    (value : Str) (visible : Bool) (color : List (PyVal × PyVal)) (style : List Str) :
    Except String (Str × Nat × List (PyVal × PyVal)) :=
  let v2 := if visible then value else []
  let add :=
    if isStrEq segVal (toL "timestamp") then
      (if width > 85 then nowFull else nowShortHM).length
    else (remove_ansi v2).length
  match colorize v2 color style with
  | .ok out => .ok (out, add, color)
  | .error e => .error e

/-- Processing of one segment of the format list. -/
def processSegment (lvl : Str) (width : Int) (nowFull nowShortHM : Str) (fuel : Nat)
    (context : List (PyVal × PyVal)) (segment : PyVal) :
    Except String (Str × Nat × List (PyVal × PyVal)) := do
  let segKvs ← asDict segment
  let stype ← dictIndex segKvs "type"
  let segVal ← dictIndex segKvs "value"
  if !isStrEq stype (toL "template") then
    finishSegment segVal width nowFull nowShortHM (pyStr segVal) true [] []
  else do
    let v0 := pyStr ((pyDictGet context segVal).getD (strV ""))
    let params ← asList ((dictGetS segKvs (toL "parameters")).getD (.list []))
    let (v, vis, col, sty) ← applyParams lvl segVal width fuel params 0 v0 true [] []
    finishSegment segVal width nowFull nowShortHM v vis col sty

def parseSegments (lvl : Str) (width : Int) (nowFull nowShortHM : Str) (fuel : Nat)
    (context : List (PyVal × PyVal)) :
    List PyVal → Str → Nat → Except String (Str × Nat)
  | [], acc, plen => .ok (acc, plen)
  | seg :: rest, acc, plen =>
      match processSegment lvl width nowFull nowShortHM fuel context seg with
      | .ok (out, add, _) =>
          parseSegments lvl width nowFull nowShortHM fuel context rest (acc ++ out) (plen + add)
      | .error e => .error e

/-- Method `FluxLogger.__parse_log_line(context, level)`: renders the
format's segments in order, accumulating the emitted text
(`formatted_log_line`) and the prompt length (`self.__prompt_length`,
reset to 0 at entry). -/
def parse_log_line (fuel : Nat) (fmt : List PyVal) (context : List (PyVal × PyVal))
    (lvl : Str) (width : Int) (nowFull nowShortHM : Str) : Except String (Str × Nat) :=
  if fmt.isEmpty then .error "Exception: the received log line format had no value"
  else parseSegments lvl width nowFull nowShortHM fuel context fmt [] 0

/-! ## takeWhile and dropWhile append algebra -/

theorem takeWhile_append_all (p : Char → Bool) (x t : Str) (h : ∀ c ∈ x, p c = true) :
    (x ++ t).takeWhile p = x ++ t.takeWhile p := by
  induction x with
  | nil => simp
  | cons c cs ih =>
      have hc : p c = true := h c (by simp)
      have ih2 := ih (fun d hd => h d (by simp [hd]))
      simp [List.takeWhile, hc, ih2]

theorem dropWhile_append_all (p : Char → Bool) (x t : Str) (h : ∀ c ∈ x, p c = true) :
    (x ++ t).dropWhile p = t.dropWhile p := by
  induction x with
  | nil => simp
  | cons c cs ih =>
      have hc : p c = true := h c (by simp)
      have ih2 := ih (fun d hd => h d (by simp [hd]))
      simp [List.dropWhile, hc, ih2]

theorem takeWhile_append_stop (p : Char → Bool) (x t : Str) (h : x.dropWhile p ≠ []) :
    (x ++ t).takeWhile p = x.takeWhile p := by
  induction x with
  | nil => simp [List.dropWhile] at h
  | cons c cs ih =>
      simp only [List.dropWhile] at h
      cases hc : p c with
      | true =>
          simp only [hc] at h
          have ih2 := ih h
          simp [List.takeWhile, hc, ih2]
      | false => simp [List.takeWhile, hc]

theorem dropWhile_append_stop (p : Char → Bool) (x t : Str) (h : x.dropWhile p ≠ []) :
    (x ++ t).dropWhile p = x.dropWhile p ++ t := by
  induction x with
  | nil => simp [List.dropWhile] at h
  | cons c cs ih =>
      simp only [List.dropWhile] at h ⊢
      cases hc : p c with
      | true =>
          simp only [hc] at h
          have ih2 := ih h
          simp [hc, ih2]
      | false => simp [hc]

theorem dropWhile_head_false (p : Char → Bool) (x : Str) (c : Char) (r : Str)
    (h : x.dropWhile p = c :: r) : p c = false := by
  induction x with
  | nil => simp [List.dropWhile] at h
  | cons d ds ih =>
      simp only [List.dropWhile] at h
      cases hd : p d with
      | true => simp only [hd] at h; exact ih h
      | false => simp only [hd] at h; cases h; exact hd

theorem mem_dropWhile_mem (p : Char → Bool) (x : Str) (c : Char)
    (h : c ∈ x.dropWhile p) : c ∈ x := by
  induction x with
  | nil => simp [List.dropWhile] at h
  | cons d ds ih =>
      simp only [List.dropWhile] at h
      cases hd : p d with
      | true => simp only [hd] at h; exact List.mem_cons_of_mem d (ih h)
      | false => simp only [hd] at h; exact h

/-! ## Character-class facts -/

theorem final_not_param (c : Char) (h : isFinalByte c = true) : isParamByte c = false := by
  simp [isFinalByte] at h
  simp [isParamByte]
  omega

theorem final_not_inter (c : Char) (h : isFinalByte c = true) : isInterByte c = false := by
  simp [isFinalByte] at h
  simp [isInterByte]
  omega

theorem inter_not_param (c : Char) (h : isInterByte c = true) : isParamByte c = false := by
  simp [isInterByte] at h
  simp [isParamByte]
  omega

theorem param_not_esc (c : Char) (h : isParamByte c = true) : c ≠ escCh := by
  intro he
  rw [he] at h
  simp [isParamByte, escCh] at h

theorem inter_not_esc (c : Char) (h : isInterByte c = true) : c ≠ escCh := by
  intro he
  rw [he] at h
  simp [isInterByte, escCh] at h

theorem final_not_esc (c : Char) (h : isFinalByte c = true) : c ≠ escCh := by
  intro he
  rw [he] at h
  simp [isFinalByte, escCh] at h

theorem single_not_esc (c : Char) (h : isSingleByte c = true) : c ≠ escCh := by
  intro he
  rw [he] at h
  simp [isSingleByte, escCh] at h

/-! ## csiMatch structure lemmas -/

/-- Canonical decomposition of a successful CSI-tail match. -/
theorem csiMatch_destruct (x : Str) (n : Nat) (h : csiMatch x = some n) :
    ∃ p q f rest, x = p ++ q ++ f :: rest
      ∧ (∀ c ∈ p, isParamByte c = true)
      ∧ (∀ c ∈ q, isInterByte c = true)
      ∧ isFinalByte f = true
      ∧ n = p.length + q.length + 1 := by
  simp only [csiMatch] at h
  cases h2 : (x.dropWhile isParamByte).dropWhile isInterByte with
  | nil => simp [h2] at h
  | cons f rest =>
      simp only [h2] at h
      cases hf : isFinalByte f with
      | false => simp [hf] at h
      | true =>
          simp only [hf, if_true, Option.some.injEq] at h
          refine ⟨x.takeWhile isParamByte, (x.dropWhile isParamByte).takeWhile isInterByte,
            f, rest, ?_, ?_, ?_, hf, h.symm⟩
          · conv_lhs => rw [← List.takeWhile_append_dropWhile (p := isParamByte) (l := x)]
            rw [List.append_assoc]
            congr 1
            conv_lhs => rw [← List.takeWhile_append_dropWhile (p := isInterByte)
              (l := x.dropWhile isParamByte)]
            rw [h2]
          · exact fun c hc => List.mem_takeWhile_imp hc
          · exact fun c hc => List.mem_takeWhile_imp hc

/-- Converse: a parameter run, an intermediate run and a final byte match,
consuming exactly those characters whatever follows. -/
theorem csiMatch_build (p q : Str) (f : Char) (rest : Str)
    (hp : ∀ c ∈ p, isParamByte c = true)
    (hq : ∀ c ∈ q, isInterByte c = true)
    (hf : isFinalByte f = true) :
    csiMatch (p ++ q ++ f :: rest) = some (p.length + q.length + 1) := by
  have h1 : (p ++ q ++ f :: rest).takeWhile isParamByte = p ++ (q ++ f :: rest).takeWhile isParamByte := by
    rw [List.append_assoc]
    exact takeWhile_append_all _ _ _ hp
  have h1d : (p ++ q ++ f :: rest).dropWhile isParamByte = (q ++ f :: rest).dropWhile isParamByte := by
    rw [List.append_assoc]
    exact dropWhile_append_all _ _ _ hp
  have h2 : (q ++ f :: rest).takeWhile isParamByte = [] := by
    cases q with
    | nil => simp [List.takeWhile, final_not_param f hf]
    | cons c q' =>
        have : isParamByte c = false := inter_not_param c (hq c (by simp))
        simp [List.takeWhile, this]
  have h2d : (q ++ f :: rest).dropWhile isParamByte = q ++ f :: rest := by
    cases q with
    | nil => simp [List.dropWhile, final_not_param f hf]
    | cons c q' =>
        have : isParamByte c = false := inter_not_param c (hq c (by simp))
        simp [List.dropWhile, this]
  have h3 : (q ++ f :: rest).takeWhile isInterByte = q ++ (f :: rest).takeWhile isInterByte :=
    takeWhile_append_all _ _ _ hq
  have h3d : (q ++ f :: rest).dropWhile isInterByte = (f :: rest).dropWhile isInterByte :=
    dropWhile_append_all _ _ _ hq
  have h4 : (f :: rest).takeWhile isInterByte = [] := by
    simp [List.takeWhile, final_not_inter f hf]
  have h4d : (f :: rest).dropWhile isInterByte = f :: rest := by
    simp [List.dropWhile, final_not_inter f hf]
  simp only [csiMatch, h1, h1d, h2, h2d, h3, h3d, h4, h4d, hf, List.append_nil]
  simp

theorem csiMatch_bound (x : Str) (n : Nat) (h : csiMatch x = some n) :
    1 ≤ n ∧ n ≤ x.length := by
  rcases csiMatch_destruct x n h with ⟨p, q, f, rest, hx, _, _, _, hn⟩
  subst hx
  simp [hn]
  omega

theorem csiMatch_some_append (x t : Str) (n : Nat) (h : csiMatch x = some n) :
    csiMatch (x ++ t) = some n := by
  rcases csiMatch_destruct x n h with ⟨p, q, f, rest, hx, hp, hq, hf, hn⟩
  subst hx
  have := csiMatch_build p q f (rest ++ t) hp hq hf
  rw [hn]
  simpa using this

theorem csiMatch_restrict (x t : Str) (n : Nat) (h : csiMatch (x ++ t) = some n)
    (hle : n ≤ x.length) : csiMatch x = some n := by
  rcases csiMatch_destruct (x ++ t) n h with ⟨p, q, f, rest, hx, hp, hq, hf, hn⟩
  have hlen : (p ++ q ++ [f]).length = n := by
    simp only [List.length_append, List.length_cons, List.length_nil]
    omega
  have hxval : x = (p ++ q ++ [f]) ++ rest.take (x.length - n) := by
    have h1 : x = (x ++ t).take x.length := by simp
    conv_lhs => rw [h1, hx]
    have h2 : p ++ q ++ f :: rest = (p ++ q ++ [f]) ++ rest := by simp
    rw [h2, List.take_append_eq_append_take,
      List.take_of_length_le (by omega : (p ++ q ++ [f]).length ≤ x.length), hlen]
  rw [hxval]
  have hassoc : (p ++ q ++ [f]) ++ rest.take (x.length - n)
      = p ++ q ++ f :: rest.take (x.length - n) := by simp
  rw [hassoc, csiMatch_build p q f (rest.take (x.length - n)) hp hq hf]
  simp only [Option.some.injEq]
  omega

/-- Characters consumed by a successful CSI-tail match lie in the three
byte classes; in particular none of them is ESC. -/
theorem csiMatch_chars_not_esc (x : Str) (n : Nat) (h : csiMatch x = some n) :
    ∀ c ∈ x.take n, c ≠ escCh := by
  rcases csiMatch_destruct x n h with ⟨p, q, f, rest, hx, hp, hq, hf, hn⟩
  subst hx
  intro c hc
  have hlen : (p ++ q ++ [f]).length = n := by
    simp only [List.length_append, List.length_cons, List.length_nil]
    omega
  have h2 : p ++ q ++ f :: rest = (p ++ q ++ [f]) ++ rest := by simp
  rw [h2, List.take_append_eq_append_take,
    List.take_of_length_le (by omega : (p ++ q ++ [f]).length ≤ n)] at hc
  have h0 : n - (p ++ q ++ [f]).length = 0 := by omega
  rw [h0] at hc
  simp only [List.take_zero, List.append_nil] at hc
  rcases List.mem_append.1 hc with hm | hm
  · rcases List.mem_append.1 hm with hm2 | hm2
    · exact param_not_esc c (hp c hm2)
    · exact inter_not_esc c (hq c hm2)
  · simp only [List.mem_singleton] at hm
    subst hm
    exact final_not_esc c hf

theorem param_esc_false : isParamByte escCh = false := by decide

theorem inter_esc_false : isInterByte escCh = false := by decide

theorem final_esc_false : isFinalByte escCh = false := by decide

/-- Extracts, from a failing CSI-tail match whose intermediate scan left a
nonempty remainder, that the remainder's head is not a final byte. -/
theorem csiMatch_none_head (x : Str) (e : Char) (es : Str)
    (hx : csiMatch x = Option.none)
    (hr : (x.dropWhile isParamByte).dropWhile isInterByte = e :: es) :
    isFinalByte e = false := by
  simp only [csiMatch, hr] at hx
  cases he : isFinalByte e with
  | true => simp [he] at hx
  | false => rfl

/-- Failure of the CSI-tail match is preserved by appending characters
that are neither parameter nor final bytes (e.g. whitespace). -/
theorem csiMatch_none_append_soft (x t : Str) (hx : csiMatch x = Option.none)
    (ht : ∀ c ∈ t, isParamByte c = false ∧ isFinalByte c = false) :
    csiMatch (x ++ t) = Option.none := by
  cases hdp : x.dropWhile isParamByte with
  | nil =>
      have hall : ∀ c ∈ x, isParamByte c = true := List.dropWhile_eq_nil_iff.1 hdp
      have hdw : (x ++ t).dropWhile isParamByte = t.dropWhile isParamByte :=
        dropWhile_append_all _ _ _ hall
      simp only [csiMatch, hdw]
      cases hr : (t.dropWhile isParamByte).dropWhile isInterByte with
      | nil => simp
      | cons f rest =>
          have hf : f ∈ t :=
            mem_dropWhile_mem _ _ _ (mem_dropWhile_mem _ _ _ (by rw [hr]; simp))
          simp [(ht f hf).2]
  | cons d ds =>
      have hne : x.dropWhile isParamByte ≠ [] := by rw [hdp]; simp
      have hdw : (x ++ t).dropWhile isParamByte = (d :: ds) ++ t := by
        rw [dropWhile_append_stop _ _ _ hne, hdp]
      cases hr2 : (d :: ds).dropWhile isInterByte with
      | nil =>
          have hallI : ∀ c ∈ (d :: ds), isInterByte c = true := List.dropWhile_eq_nil_iff.1 hr2
          have hdw2 : ((d :: ds) ++ t).dropWhile isInterByte = t.dropWhile isInterByte :=
            dropWhile_append_all _ _ _ hallI
          simp only [csiMatch, hdw, hdw2]
          cases hr : t.dropWhile isInterByte with
          | nil => simp
          | cons f rest =>
              have hf : f ∈ t := mem_dropWhile_mem _ _ _ (by rw [hr]; simp)
              simp [(ht f hf).2]
      | cons e es =>
          have hne2 : (d :: ds).dropWhile isInterByte ≠ [] := by rw [hr2]; simp
          have hdw2 : ((d :: ds) ++ t).dropWhile isInterByte
              = (e :: es) ++ t := by
            rw [dropWhile_append_stop _ _ _ hne2, hr2]
          have hef : isFinalByte e = false := by
            refine csiMatch_none_head x e es hx ?_
            rw [hdp, hr2]
          simp only [csiMatch, hdw, hdw2]
          simp [hef]

/-- Failure of the CSI-tail match is preserved by appending anything that
begins with ESC (which lies in none of the three byte classes). -/
theorem csiMatch_none_append_esc (x r : Str) (hx : csiMatch x = Option.none) :
    csiMatch (x ++ escCh :: r) = Option.none := by
  cases hdp : x.dropWhile isParamByte with
  | nil =>
      have hall : ∀ c ∈ x, isParamByte c = true := List.dropWhile_eq_nil_iff.1 hdp
      have hdw : (x ++ escCh :: r).dropWhile isParamByte
          = (escCh :: r).dropWhile isParamByte := dropWhile_append_all _ _ _ hall
      have h1 : (escCh :: r).dropWhile isParamByte = escCh :: r := by
        simp [List.dropWhile, param_esc_false]
      have h2 : (escCh :: r).dropWhile isInterByte = escCh :: r := by
        simp [List.dropWhile, inter_esc_false]
      simp only [csiMatch, hdw, h1, h2]
      simp [final_esc_false]
  | cons d ds =>
      have hne : x.dropWhile isParamByte ≠ [] := by rw [hdp]; simp
      have hdw : (x ++ escCh :: r).dropWhile isParamByte = (d :: ds) ++ escCh :: r := by
        rw [dropWhile_append_stop _ _ _ hne, hdp]
      cases hr2 : (d :: ds).dropWhile isInterByte with
      | nil =>
          have hallI : ∀ c ∈ (d :: ds), isInterByte c = true := List.dropWhile_eq_nil_iff.1 hr2
          have hdw2 : ((d :: ds) ++ escCh :: r).dropWhile isInterByte
              = (escCh :: r).dropWhile isInterByte := dropWhile_append_all _ _ _ hallI
          have h2 : (escCh :: r).dropWhile isInterByte = escCh :: r := by
            simp [List.dropWhile, inter_esc_false]
          simp only [csiMatch, hdw, hdw2, h2]
          simp [final_esc_false]
      | cons e es =>
          have hne2 : (d :: ds).dropWhile isInterByte ≠ [] := by rw [hr2]; simp
          have hdw2 : ((d :: ds) ++ escCh :: r).dropWhile isInterByte
              = (e :: es) ++ escCh :: r := by
            rw [dropWhile_append_stop _ _ _ hne2, hr2]
          have hef : isFinalByte e = false := by
            refine csiMatch_none_head x e es hx ?_
            rw [hdp, hr2]
          simp only [csiMatch, hdw, hdw2]
          simp [hef]

theorem stripWith_cons_some (m : Str → Option Nat) (c : Char) (cs : Str) (n : Nat)
    (hm : m (c :: cs) = some n) :
    stripWith m (c :: cs) = stripWith m (cs.drop (n - 1)) := by
  rw [stripWith_cons, hm]

theorem stripWith_cons_none (m : Str → Option Nat) (c : Char) (cs : Str)
    (hm : m (c :: cs) = Option.none) :
    stripWith m (c :: cs) = c :: stripWith m cs := by
  rw [stripWith_cons, hm]

/-! ## Anchored-matcher lemmas -/

theorem ws_classes (d : Char) (h : pyIsSpace d = true) :
    isParamByte d = false ∧ isFinalByte d = false ∧ isSingleByte d = false
      ∧ d ≠ '[' ∧ d ≠ escCh := by
  simp only [pyIsSpace, Bool.or_eq_true, decide_eq_true_eq] at h
  rcases h with ((((h | h) | h) | h) | h) | h <;> subst h <;>
    refine ⟨?_, ?_, ?_, ?_, ?_⟩ <;> decide

theorem wrapMatch_head_esc (c : Char) (cs : Str) (n : Nat)
    (h : ansiMatchWrap (c :: cs) = some n) : c = escCh := by
  cases cs with
  | nil => simp [ansiMatchWrap] at h
  | cons c2 rest =>
      by_cases hc : c = escCh
      · exact hc
      · simp [ansiMatchWrap, hc] at h

theorem wrapMatch_bound (s : Str) (n : Nat) (h : ansiMatchWrap s = some n) :
    2 ≤ n ∧ n ≤ s.length := by
  cases s with
  | nil => simp [ansiMatchWrap] at h
  | cons c cs =>
      cases cs with
      | nil => simp [ansiMatchWrap] at h
      | cons c2 rest =>
          simp only [ansiMatchWrap] at h
          by_cases he : c = escCh
          · simp only [he, if_true] at h
            by_cases hs : isSingleByte c2
            · simp only [hs, if_true, Option.some.injEq] at h
              subst h
              simp only [List.length_cons]
              omega
            · simp only [hs, if_false] at h
              by_cases hb : c2 = '['
              · simp only [hb, if_true] at h
                cases hcm : csiMatch rest with
                | none => rw [hcm] at h; simp at h
                | some k =>
                    rw [hcm] at h
                    simp at h
                    have := csiMatch_bound rest k hcm
                    subst h
                    simp only [List.length_cons]
                    omega
              · simp [hb] at h
          · simp [he] at h

theorem wrapMatch_some_append (s t : Str) (n : Nat) (h : ansiMatchWrap s = some n) :
    ansiMatchWrap (s ++ t) = some n := by
  cases s with
  | nil => simp [ansiMatchWrap] at h
  | cons c cs =>
      cases cs with
      | nil => simp [ansiMatchWrap] at h
      | cons c2 rest =>
          simp only [ansiMatchWrap, List.cons_append] at h ⊢
          by_cases he : c = escCh
          · simp only [he, if_true] at h ⊢
            by_cases hs : isSingleByte c2
            · simpa [hs] using h
            · simp only [hs, if_false] at h ⊢
              by_cases hb : c2 = '['
              · simp only [hb, if_true] at h ⊢
                cases hcm : csiMatch rest with
                | none => rw [hcm] at h; simp at h
                | some k =>
                    rw [hcm] at h
                    rw [csiMatch_some_append rest t k hcm]
                    exact h
              · simp [hb] at h
          · simp [he] at h

theorem wrapMatch_restrict (s t : Str) (n : Nat) (h : ansiMatchWrap (s ++ t) = some n)
    (hle : n ≤ s.length) : ansiMatchWrap s = some n := by
  have hb2 := wrapMatch_bound (s ++ t) n h
  cases s with
  | nil => simp at hle; omega
  | cons c cs =>
      cases cs with
      | nil =>
          simp only [List.length_cons, List.length_nil] at hle
          omega
      | cons c2 rest =>
          simp only [ansiMatchWrap, List.cons_append] at h ⊢
          by_cases he : c = escCh
          · simp only [he, if_true] at h ⊢
            by_cases hs : isSingleByte c2
            · simpa [hs] using h
            · simp only [hs, if_false] at h ⊢
              by_cases hbr : c2 = '['
              · simp only [hbr, if_true] at h ⊢
                cases hcm : csiMatch (rest ++ t) with
                | none => rw [hcm] at h; simp at h
                | some k =>
                    rw [hcm] at h
                    simp at h
                    have hres : csiMatch rest = some k := by
                      refine csiMatch_restrict rest t k hcm ?_
                      simp only [List.length_cons] at hle
                      omega
                    rw [hres]
                    simp
                    omega
              · simp [hbr] at h
          · simp [he] at h

theorem wrapMatch_tail_not_esc (s : Str) (n : Nat) (h : ansiMatchWrap s = some n) :
    ∀ c ∈ (s.take n).drop 1, c ≠ escCh := by
  cases s with
  | nil => simp [ansiMatchWrap] at h
  | cons c cs =>
      cases cs with
      | nil => simp [ansiMatchWrap] at h
      | cons c2 rest =>
          simp only [ansiMatchWrap] at h
          by_cases he : c = escCh
          · simp only [he, if_true] at h
            by_cases hs : isSingleByte c2
            · simp only [hs, if_true, Option.some.injEq] at h
              subst h
              intro d hd
              simp only [List.take_succ_cons, List.take_succ_cons, List.take_zero,
                List.drop_succ_cons, List.drop_zero, List.mem_singleton] at hd
              subst hd
              exact single_not_esc d hs
            · simp only [hs, if_false] at h
              by_cases hb : c2 = '['
              · simp only [hb, if_true] at h
                cases hcm : csiMatch rest with
                | none => rw [hcm] at h; simp at h
                | some k =>
                rw [hcm] at h
                simp at h
                subst h
                intro d hd
                simp only [List.take_succ_cons, List.drop_succ_cons, List.drop_zero,
                  List.mem_cons] at hd
                rcases hd with hd | hd
                · subst hd; rw [hb]; decide
                · exact csiMatch_chars_not_esc rest k hcm d hd
              · simp [hb] at h
          · simp [he] at h

theorem wrapMatch_none_cons_append_ws (c : Char) (cs t : Str)
    (h : ansiMatchWrap (c :: cs) = Option.none) (ht : ∀ d ∈ t, pyIsSpace d = true) :
    ansiMatchWrap (c :: cs ++ t) = Option.none := by
  by_cases he : c = escCh
  · subst he
    cases cs with
    | nil =>
        cases t with
        | nil => rfl
        | cons d t2 =>
            have hd := ws_classes d (ht d (by simp))
            simp only [List.nil_append, List.cons_append, ansiMatchWrap, if_true]
            simp [hd.2.2.1, hd.2.2.2.1]
    | cons c2 rest =>
        simp only [ansiMatchWrap] at h
        simp only [List.cons_append, ansiMatchWrap, if_true]
        by_cases hs : isSingleByte c2
        · simp [hs] at h
        · simp only [hs, if_false] at h ⊢
          by_cases hb : c2 = '['
          · simp only [hb, if_true] at h ⊢
            cases hcm : csiMatch rest with
            | some k => simp [hcm] at h
            | none =>
                rw [csiMatch_none_append_soft rest t hcm
                  (fun d hd => ⟨(ws_classes d (ht d hd)).1, (ws_classes d (ht d hd)).2.1⟩)]
                rfl
          · simp [hb]
  · cases cs with
    | nil =>
        cases t with
        | nil => rfl
        | cons d t2 => simp [ansiMatchWrap, he]
    | cons c2 rest => simp [ansiMatchWrap, he]

theorem remMatch_bound (s : Str) (n : Nat) (h : ansiMatchRemove s = some n) :
    2 ≤ n ∧ n ≤ s.length := by
  cases s with
  | nil => simp [ansiMatchRemove] at h
  | cons c cs =>
      cases cs with
      | nil => simp [ansiMatchRemove] at h
      | cons c2 rest =>
          simp only [ansiMatchRemove] at h
          by_cases he : (c = escCh && isAtByte c2) = true
          · simp only [he, if_true] at h
            cases hcm : csiMatch rest with
            | none => rw [hcm] at h; simp at h
            | some k =>
                rw [hcm] at h
                simp only [Option.map_some', Option.some.injEq] at h
                have := csiMatch_bound rest k hcm
                subst h
                simp only [List.length_cons]
                omega
          · simp only [Bool.not_eq_true] at he
            simp [he] at h

theorem remMatch_some_append (s t : Str) (n : Nat) (h : ansiMatchRemove s = some n) :
    ansiMatchRemove (s ++ t) = some n := by
  cases s with
  | nil => simp [ansiMatchRemove] at h
  | cons c cs =>
      cases cs with
      | nil => simp [ansiMatchRemove] at h
      | cons c2 rest =>
          simp only [ansiMatchRemove, List.cons_append] at h ⊢
          by_cases he : (c = escCh && isAtByte c2) = true
          · simp only [he, if_true] at h ⊢
            cases hcm : csiMatch rest with
            | none => rw [hcm] at h; simp at h
            | some k =>
                rw [hcm] at h
                rw [csiMatch_some_append rest t k hcm]
                exact h
          · simp only [Bool.not_eq_true] at he
            simp [he] at h

theorem remMatch_none_cons_append_esc (c : Char) (cs r : Str)
    (h : ansiMatchRemove (c :: cs) = Option.none) :
    ansiMatchRemove (c :: cs ++ escCh :: r) = Option.none := by
  cases cs with
  | nil =>
      simp only [List.nil_append, List.cons_append, ansiMatchRemove]
      rw [if_neg]
      intro hc
      simp only [Bool.and_eq_true, decide_eq_true_eq] at hc
      have hat : isAtByte escCh = false := by decide
      rw [hat] at hc
      exact Bool.noConfusion hc.2
  | cons c2 rest =>
      simp only [ansiMatchRemove] at h
      simp only [List.cons_append, ansiMatchRemove]
      by_cases he : (c = escCh && isAtByte c2) = true
      · simp only [he, if_true] at h ⊢
        cases hcm : csiMatch rest with
        | some k => simp [hcm] at h
        | none =>
            rw [csiMatch_none_append_esc rest r hcm]
            rfl
      · simp only [Bool.not_eq_true] at he
        simp only [he, if_false] at h ⊢
        rfl

/-! ## Generic substitution-scan lemmas -/

/-- If the matcher fires only at ESC, a run of non-ESC characters passes
through the scan untouched. -/
theorem stripWith_noesc_prepend (m : Str → Option Nat)
    (h0 : ∀ c cs n, m (c :: cs) = some n → c = escCh)
    (p r : Str) (hp : ∀ c ∈ p, c ≠ escCh) :
    stripWith m (p ++ r) = p ++ stripWith m r := by
  induction p with
  | nil => simp
  | cons c cs ih =>
      rw [List.cons_append]
      cases hm : m (c :: (cs ++ r)) with
      | some n => exact absurd (h0 _ _ _ hm) (hp c (by simp))
      | none =>
          rw [stripWith_cons_none m _ _ hm, ih (fun d hd => hp d (by simp [hd]))]
          rfl

/-- A complete escape-sequence prefix (one the matcher consumes exactly,
whatever follows it) disappears from the scan. -/
theorem stripWith_esc_prepend (m : Str → Option Nat) (e : Str)
    (hmatch : ∀ s2, m (e ++ s2) = some e.length) (hlen : 1 ≤ e.length) (s : Str) :
    stripWith m (e ++ s) = stripWith m s := by
  cases e with
  | nil => simp at hlen
  | cons c e2 =>
      have hm := hmatch s
      rw [List.cons_append] at hm
      rw [List.cons_append, stripWith_cons_some m _ _ _ hm]
      have hdrop : (e2 ++ s).drop ((c :: e2).length - 1) = s := by
        simp only [List.length_cons, Nat.add_sub_cancel]
        rw [List.drop_append_eq_append_drop]
        simp
      rw [hdrop]

/-- Appending `t` commutes with the scan provided matches extend over the
boundary neither way: successful matches persist (`hsa`), failures persist
(`hne`). -/
theorem stripWith_append_split (m : Str → Option Nat) (t : Str)
    (hb : ∀ s n, m s = some n → 1 ≤ n ∧ n ≤ s.length)
    (hsa : ∀ s n, m s = some n → m (s ++ t) = some n)
    (hne : ∀ c cs, m (c :: cs) = Option.none → m (c :: cs ++ t) = Option.none) :
    ∀ N a, a.length ≤ N → stripWith m (a ++ t) = stripWith m a ++ stripWith m t := by
  intro N
  induction N with
  | zero =>
      intro a ha
      cases a with
      | nil => simp [stripWith_nil]
      | cons c cs => simp at ha
  | succ N ih =>
      intro a ha
      cases a with
      | nil => simp [stripWith_nil]
      | cons c cs =>
          rw [List.cons_append]
          cases hm : m (c :: cs) with
          | some n =>
              have hm2 := hsa _ _ hm
              rw [List.cons_append] at hm2
              rw [stripWith_cons_some m _ _ _ hm2, stripWith_cons_some m _ _ _ hm]
              have hbd := hb _ _ hm
              have hdrop : (cs ++ t).drop (n - 1) = cs.drop (n - 1) ++ t := by
                rw [List.drop_append_eq_append_drop]
                have h0 : n - 1 - cs.length = 0 := by
                  simp only [List.length_cons] at hbd
                  omega
                rw [h0]
                simp
              rw [hdrop]
              refine ih (cs.drop (n - 1)) ?_
              have := List.length_drop (n - 1) cs
              simp only [List.length_cons] at ha
              omega
          | none =>
              have hm2 := hne _ _ hm
              rw [List.cons_append] at hm2
              rw [stripWith_cons_none m _ _ hm2, stripWith_cons_none m _ _ hm,
                ih cs (by simp only [List.length_cons] at ha; omega)]
              rfl

/-! ## Visible-length lemmas for the wrapper -/

/-- Appending trailing whitespace adds exactly its length to the visible
length: no escape sequence can complete across the boundary. -/
theorem stripWrap_append_ws (a w : Str) (hw : ∀ c ∈ w, pyIsSpace c = true) :
    stripWrap (a ++ w) = stripWrap a ++ w := by
  have hsplit := stripWith_append_split ansiMatchWrap w
    (fun s n h => by have := wrapMatch_bound s n h; omega)
    (fun s n h => wrapMatch_some_append s w n h)
    (fun c cs h => wrapMatch_none_cons_append_ws c cs w h hw)
    a.length a le_rfl
  have hfix : stripWith ansiMatchWrap w = w := by
    have := stripWith_noesc_prepend ansiMatchWrap wrapMatch_head_esc w []
      (fun c hc => (ws_classes c (hw c hc)).2.2.2.2)
    simpa [stripWith_nil] using this
  unfold stripWrap
  rw [hsplit, hfix]

theorem visibleLen_rstrip_le (s : Str) : visibleLen (pyRstrip s) ≤ visibleLen s := by
  have hdec : s = pyRstrip s ++ (s.reverse.takeWhile pyIsSpace).reverse := by
    conv_lhs => rw [← List.reverse_reverse s,
      ← List.takeWhile_append_dropWhile (p := pyIsSpace) (l := s.reverse)]
    rw [List.reverse_append]
    rfl
  have hws : ∀ c ∈ (s.reverse.takeWhile pyIsSpace).reverse, pyIsSpace c = true := by
    intro c hc
    rw [List.mem_reverse] at hc
    exact List.mem_takeWhile_imp hc
  conv_rhs => rw [hdec]
  unfold visibleLen
  rw [stripWrap_append_ws _ _ hws]
  simp

/-- Subadditivity of the visible length: concatenation can only merge
escape sequences across the boundary, never split them. -/
theorem visibleLen_append_le_aux :
    ∀ N a b, a.length ≤ N →
      (stripWrap (a ++ b)).length ≤ (stripWrap a).length + (stripWrap b).length := by
  intro N
  induction N with
  | zero =>
      intro a b ha
      cases a with
      | nil => simp
      | cons c cs => simp at ha
  | succ N ih =>
      intro a b ha
      cases a with
      | nil => simp
      | cons c cs =>
          unfold stripWrap
          rw [List.cons_append]
          cases hm : ansiMatchWrap (c :: cs) with
          | some n =>
              have hm2 : ansiMatchWrap (c :: (cs ++ b)) = some n := by
                have := wrapMatch_some_append (c :: cs) b n hm
                rwa [List.cons_append] at this
              rw [stripWith_cons_some _ _ _ _ hm2, stripWith_cons_some _ _ _ _ hm]
              have hbd := wrapMatch_bound _ _ hm
              have hdrop : (cs ++ b).drop (n - 1) = cs.drop (n - 1) ++ b := by
                rw [List.drop_append_eq_append_drop]
                have h0 : n - 1 - cs.length = 0 := by
                  simp only [List.length_cons] at hbd
                  omega
                rw [h0]
                simp
              rw [hdrop]
              have := ih (cs.drop (n - 1)) b
                (by have := List.length_drop (n - 1) cs
                    simp only [List.length_cons] at ha
                    omega)
              unfold stripWrap at this
              exact this
          | none =>
              cases hm2 : ansiMatchWrap (c :: (cs ++ b)) with
              | none =>
                  rw [stripWith_cons_none _ _ _ hm2, stripWith_cons_none _ _ _ hm]
                  have := ih cs b (by simp only [List.length_cons] at ha; omega)
                  unfold stripWrap at this
                  simp only [List.length_cons]
                  omega
              | some N2 =>
                  have hbd2 := wrapMatch_bound _ _ hm2
                  by_cases hfit : N2 ≤ (c :: cs).length
                  · exfalso
                    have := wrapMatch_restrict (c :: cs) b N2
                      (by rwa [List.cons_append]) hfit
                    rw [hm] at this
                    cases this
                  · -- a cross-boundary match: it swallows a prefix of `b`
                    -- whose characters are all visible in `b` alone
                    rw [stripWith_cons_some _ _ _ _ hm2, stripWith_cons_none _ _ _ hm]
                    push_neg at hfit
                    simp only [List.length_cons] at hfit
                    have hdrop : (cs ++ b).drop (N2 - 1)
                        = b.drop (N2 - 1 - cs.length) := by
                      rw [List.drop_append_eq_append_drop]
                      have h0 : cs.drop (N2 - 1) = [] := by
                        apply List.drop_eq_nil_of_le
                        omega
                      rw [h0]
                      simp
                    rw [hdrop]
                    set k := N2 - 1 - cs.length with hk
                    have htail := wrapMatch_tail_not_esc _ _ hm2
                    have htake : ((c :: (cs ++ b)).take N2).drop 1
                        = cs ++ b.take k := by
                      have h1 : (c :: (cs ++ b)).take N2
                          = c :: (cs ++ b).take (N2 - 1) := by
                        cases hN2 : N2 with
                        | zero => omega
                        | succ q => simp [List.take_succ_cons]
                      rw [h1, List.drop_succ_cons, List.drop_zero,
                        List.take_append_eq_append_take,
                        List.take_of_length_le (by omega)]
                    have hbtk : ∀ d ∈ b.take k, d ≠ escCh := by
                      intro d hd
                      refine htail d ?_
                      rw [htake]
                      exact List.mem_append_right _ hd
                    have hbsplit : stripWith ansiMatchWrap b
                        = b.take k ++ stripWith ansiMatchWrap (b.drop k) := by
                      conv_lhs => rw [← List.take_append_drop k b]
                      exact stripWith_noesc_prepend ansiMatchWrap wrapMatch_head_esc
                        (b.take k) (b.drop k) hbtk
                    have hlenb : (stripWith ansiMatchWrap (b.drop k)).length
                        ≤ (stripWith ansiMatchWrap b).length := by
                      rw [hbsplit]
                      simp
                    simp only [List.length_cons]
                    omega

theorem visibleLen_append_le (a b : Str) :
    visibleLen (a ++ b) ≤ visibleLen a + visibleLen b :=
  visibleLen_append_le_aux a.length a b le_rfl

/-! ## Soundness of the word-wrap loop -/

theorem wrapTokens_sound (width : Int) (hW : 1 ≤ width) (line : Str) :
    ∀ ws cur cv,
      (∀ t ∈ ws, t ∈ tokenize line) →
      visibleLen cur ≤ cv →
      (((cv : Int) ≤ width) ∨
        (∃ tok ∈ tokenize line, cur = tok ∧ cv = visibleLen tok ∧ width < (cv : Int))) →
      ∀ l ∈ wrapTokens width ws cur cv,
        ((visibleLen l : Int) ≤ width) ∨
        (∃ tok ∈ tokenize line, l = pyRstrip tok ∧ width < (visibleLen tok : Int)) := by
  intro ws
  induction ws with
  | nil =>
      intro cur cv hsub hvl hinv l hl
      simp only [wrapTokens] at hl
      by_cases hcur : cur.isEmpty
      · simp [hcur] at hl
      · simp only [hcur, Bool.false_eq_true, if_false, List.mem_singleton] at hl
        subst hl
        rcases hinv with h | ⟨tok, htok, hcteq, hcve, hgt⟩
        · left
          have h1 := visibleLen_rstrip_le cur
          omega
        · right
          subst hcteq
          exact ⟨cur, htok, rfl, by omega⟩
  | cons w ws ih =>
      intro cur cv hsub hvl hinv l hl
      simp only [wrapTokens] at hl
      by_cases hflush : ((cv + visibleLen w : Nat) : Int) > width
      · rw [if_pos hflush] at hl
        rcases List.mem_append.1 hl with hl | hl
        · by_cases hcur : cur.isEmpty
          · simp [hcur] at hl
          · simp only [hcur, Bool.false_eq_true, if_false, List.mem_singleton] at hl
            subst hl
            rcases hinv with h | ⟨tok, htok, hcteq, hcve, hgt⟩
            · left
              have h1 := visibleLen_rstrip_le cur
              omega
            · right
              subst hcteq
              exact ⟨cur, htok, rfl, by omega⟩
        · refine ih w (visibleLen w) (fun t ht => hsub t (by simp [ht])) le_rfl ?_ l hl
          by_cases hwl : ((visibleLen w : Nat) : Int) ≤ width
          · left; exact hwl
          · right
            refine ⟨w, hsub w (by simp), rfl, rfl, by omega⟩
      · rw [if_neg hflush] at hl
        push_neg at hflush
        refine ih (cur ++ w) (cv + visibleLen w) (fun t ht => hsub t (by simp [ht])) ?_ ?_ l hl
        · have h1 := visibleLen_append_le cur w
          omega
        · left
          exact hflush

/-- Claim C3: every line returned by wrap has visible length (escape sequences
excluded) at most the width, except that a line may be the right-stripped form
of a single token whose own visible length exceeds the width. -/
theorem wrap_text_sound (text : Str) (width : Int) (hW : 1 ≤ width) :
    ∀ l ∈ wrap_text text width,
      ((visibleLen l : Int) ≤ width) ∨
      (∃ line ∈ splitNl text, ∃ tok ∈ tokenize line,
        l = pyRstrip tok ∧ width < (visibleLen tok : Int)) := by
  intro l hl
  unfold wrap_text at hl
  rw [List.mem_flatten] at hl
  rcases hl with ⟨ls, hls, hl⟩
  rw [List.mem_map] at hls
  rcases hls with ⟨line, hline, rfl⟩
  have := wrapTokens_sound width hW line (tokenize line) [] 0 (fun t ht => ht)
    (by rw [show visibleLen [] = 0 from rfl])
    (Or.inl (by omega)) l hl
  rcases this with h | ⟨tok, htok, hrt, hgt⟩
  · exact Or.inl h
  · exact Or.inr ⟨line, hline, tok, htok, hrt, hgt⟩

/-! ## Escape-sequence peeling for the prompt-length bookkeeping -/

theorem remMatch_head_esc (c : Char) (cs : Str) (n : Nat)
    (h : ansiMatchRemove (c :: cs) = some n) : c = escCh := by
  cases cs with
  | nil => simp [ansiMatchRemove] at h
  | cons c2 rest =>
      by_cases hc : c = escCh
      · exact hc
      · simp [ansiMatchRemove, hc] at h

theorem digitChar_param (d : Nat) : isParamByte (digitChar d) = true := by
  simp only [digitChar]
  split <;> decide

theorem natDigitsF_param :
    ∀ f n acc, (∀ c ∈ acc, isParamByte c = true) →
      ∀ c ∈ natDigitsF f n acc, isParamByte c = true := by
  intro f
  induction f with
  | zero => intro n acc hacc; exact hacc
  | succ f ih =>
      intro n acc hacc c hc
      simp only [natDigitsF] at hc
      by_cases hn : n < 10
      · simp only [hn, if_true] at hc
        rcases List.mem_cons.1 hc with h | h
        · subst h; exact digitChar_param n
        · exact hacc c h
      · simp only [hn, if_false] at hc
        refine ih (n / 10) (digitChar (n % 10) :: acc) ?_ c hc
        intro d hd
        rcases List.mem_cons.1 hd with h | h
        · subst h; exact digitChar_param (n % 10)
        · exact hacc d h

theorem natDigits_param (n : Nat) : ∀ c ∈ natDigits n, isParamByte c = true :=
  natDigitsF_param (n + 1) n [] (by simp)

/-- The matcher of `__remove_ansi` consumes exactly an SGR-shaped escape
(ESC, bracket, parameter bytes, `m`), whatever follows. -/
theorem remMatch_code_exact (d : Str) (hd : ∀ c ∈ d, isParamByte c = true) (s : Str) :
    ansiMatchRemove ((escCh :: '[' :: (d ++ ['m'])) ++ s) = some (d.length + 3) := by
  have hshape : (escCh :: '[' :: (d ++ ['m'])) ++ s = escCh :: '[' :: (d ++ 'm' :: s) := by
    simp
  rw [hshape]
  simp only [ansiMatchRemove]
  rw [if_pos (by simp; decide)]
  have hbuild := csiMatch_build d [] 'm' s hd (by simp) (by decide)
  have hb2 : csiMatch (d ++ 'm' :: s) = some (d.length + 1) := by simpa using hbuild
  rw [hb2]
  simp only [Option.map_some', Option.some.injEq]

theorem ansiSgr_length (k : Nat) : (ansiSgr k).length = (natDigits k).length + 3 := by
  simp [ansiSgr]

/-- An SGR escape disappears from `remove_ansi`, whatever follows it. -/
theorem escSgr_peel (k : Nat) (s : Str) :
    remove_ansi (ansiSgr k ++ s) = remove_ansi s := by
  refine stripWith_esc_prepend ansiMatchRemove (ansiSgr k) ?_ (by simp [ansiSgr]) s
  intro s2
  have := remMatch_code_exact (natDigits k) (natDigits_param k) s2
  rw [ansiSgr_length]
  simpa [ansiSgr] using this

/-- Appending `Style.RESET_ALL` does not change the ANSI-stripped text. -/
theorem remove_ansi_append_reset (a : Str) :
    remove_ansi (a ++ ansiSgr 0) = remove_ansi a := by
  have hsgr : ansiSgr 0 = escCh :: toL "[0m" := by decide
  have hsplit := stripWith_append_split ansiMatchRemove (ansiSgr 0)
    (fun s n h => by have := remMatch_bound s n h; omega)
    (fun s n h => remMatch_some_append s (ansiSgr 0) n h)
    (fun c cs h => by
      rw [hsgr]
      exact remMatch_none_cons_append_esc c cs (toL "[0m") h)
    a.length a le_rfl
  unfold remove_ansi
  rw [hsplit]
  have hreset : stripWith ansiMatchRemove (ansiSgr 0) = [] := by decide
  rw [hreset, List.append_nil]

/-- Every color code in the lookup tables peels off. -/
theorem table_peel (p : Str × Str) (hp : p ∈ foreTable ∨ p ∈ backTable) (s : Str) :
    remove_ansi (p.2 ++ s) = remove_ansi s := by
  rcases hp with hp | hp <;>
    · simp only [foreTable, backTable, List.mem_cons, List.not_mem_nil, or_false] at hp
      rcases hp with h|h|h|h|h|h|h|h|h|h|h|h|h|h|h|h|h <;> (subst h; exact escSgr_peel _ s)

theorem getattrColor_peel (table : List (Str × Str)) (name : Str)
    (ht : ∀ p ∈ table, ∀ s, remove_ansi (p.2 ++ s) = remove_ansi s) (s : Str) :
    remove_ansi (getattrColor table name ++ s) = remove_ansi s := by
  simp only [getattrColor]
  cases hf : table.find? (fun p => p.1 == name) with
  | none => simp
  | some p =>
      have hmem : p ∈ table := List.mem_of_find?_eq_some hf
      exact ht p hmem s

theorem colorQuant_nonneg (x : Int) (h : 0 ≤ x) : 0 ≤ colorQuant x := by
  unfold colorQuant
  exact Int.tdiv_nonneg (by omega) (by omega)

theorem colorCode_nonneg (r g b : Int) (hr : 0 ≤ r) (hg : 0 ≤ g) (hb : 0 ≤ b) :
    0 ≤ colorCode r g b := by
  unfold colorCode
  have h1 := colorQuant_nonneg r hr
  have h2 := colorQuant_nonneg g hg
  have h3 := colorQuant_nonneg b hb
  omega

/-- The explicit-RGB escape peels off as long as its palette index is not
negative (a negative index would put a minus sign, an intermediate byte,
into the parameter area and break the regex match). -/
theorem rgb_peel (r g b : Int) (fg : Bool) (s : Str) (h : 0 ≤ colorCode r g b) :
    remove_ansi (rgb_to_ansi r g b fg ++ s) = remove_ansi s := by
  have hcode : intStr (colorCode r g b) = natDigits (colorCode r g b).toNat := by
    unfold intStr
    rw [if_neg (by omega)]
  have hd : ∀ c ∈ (toL (if fg then "38" else "48") ++ toL ";5;"
      ++ intStr (colorCode r g b)), isParamByte c = true := by
    intro c hc
    rw [hcode] at hc
    rcases List.mem_append.1 hc with h1 | h1
    · rcases List.mem_append.1 h1 with h2 | h2
      · cases fg
        · have hcv : c = '4' ∨ c = '8' := by simpa [toL] using h2
          rcases hcv with rfl | rfl <;> decide
        · have hcv : c = '3' ∨ c = '8' := by simpa [toL] using h2
          rcases hcv with rfl | rfl <;> decide
      · have hcv : c = ';' ∨ c = '5' ∨ c = ';' := by simpa [toL] using h2
        rcases hcv with rfl | rfl | rfl <;> decide
    · exact natDigits_param _ c h1
  refine stripWith_esc_prepend ansiMatchRemove (rgb_to_ansi r g b fg) ?_
    (by simp [rgb_to_ansi]) s
  intro s2
  have hmc := remMatch_code_exact _ hd s2
  have hlen : (rgb_to_ansi r g b fg).length
      = (toL (if fg then "38" else "48") ++ toL ";5;"
          ++ intStr (colorCode r g b)).length + 3 := by
    simp [rgb_to_ansi]
    omega
  rw [hlen]
  exact hmc

/-! ## Colorize-level stripping -/

def fixedStyleCodes : List Str := [ansiSgr 1, ansiSgr 3, ansiSgr 4, ansiSgr 5, ansiSgr 7]

/-- Nonnegativity of one RGB component value (the components feeding
`asInt`). -/
def compNonneg : PyVal → Bool
  | .int n => decide (0 ≤ n)
  | _ => true

/-- The RGB-sanity condition of one color side: if it is an RGB triple,
its components are not negative. -/
def rgbNonnegB : Option PyVal → Bool
  | some (.tuple [a, b, c]) => compNonneg a && compNonneg b && compNonneg c
  | _ => true

/-- The RGB-sanity condition of a whole color dict. -/
def colorDictOkB (kvs : List (PyVal × PyVal)) : Bool :=
  rgbNonnegB (dictGetS kvs (toL "foreground")) && rgbNonnegB (dictGetS kvs (toL "background"))

theorem ebind_ok {α β : Type} (x : Except String α) (f : α → Except String β) (b : β)
    (h : (x >>= f) = .ok b) : ∃ a, x = .ok a ∧ f a = .ok b := by
  cases x with
  | error e => simp [Bind.bind, Except.bind] at h
  | ok a => exact ⟨a, rfl, by simpa [Bind.bind, Except.bind] using h⟩

theorem except_case_ok {α β : Type} (B : Except String α) (f : α → β) (out : β)
    (h : (match B with
          | .ok x => Except.ok (f x)
          | .error e => Except.error e) = Except.ok out) :
    ∃ x, B = .ok x ∧ out = f x := by
  cases B with
  | error e => simp at h
  | ok a =>
      refine ⟨a, rfl, ?_⟩
      simp only [Except.ok.injEq] at h
      exact h.symm

theorem asInt_nonneg (x : PyVal) (n : Int) (hx : compNonneg x = true)
    (h : asInt x = .ok n) : 0 ≤ n := by
  cases x <;> simp [asInt] at h
  · rename_i b
    subst h
    split <;> omega
  · rename_i m
    subst h
    simpa [compNonneg] using hx

theorem sideCode_peel (fgf : Bool) (v : Option PyVal) (e : Str)
    (hok : sideCode fgf v = .ok e) (hnn : rgbNonnegB v = true) (s : Str) :
    remove_ansi (e ++ s) = remove_ansi s := by
  unfold sideCode at hok
  split at hok
  · -- RGB triple
    rename_i a b c
    rcases ebind_ok _ _ _ hok with ⟨r, hr, hok⟩
    rcases ebind_ok _ _ _ hok with ⟨g, hg, hok⟩
    rcases ebind_ok _ _ _ hok with ⟨bl, hbl, hok⟩
    simp only [Except.ok.injEq] at hok
    subst hok
    simp only [rgbNonnegB, Bool.and_eq_true] at hnn
    refine rgb_peel r g bl fgf s (colorCode_nonneg r g bl ?_ ?_ ?_)
    · exact asInt_nonneg a r hnn.1.1 hr
    · exact asInt_nonneg b g hnn.1.2 hg
    · exact asInt_nonneg c bl hnn.2 hbl
  · -- named color
    rename_i s0
    simp only [Except.ok.injEq] at hok
    subst hok
    cases fgf
    · exact getattrColor_peel backTable (pyUpper s0)
        (fun p hp => table_peel p (Or.inr hp)) s
    · exact getattrColor_peel foreTable (pyUpper s0)
        (fun p hp => table_peel p (Or.inl hp)) s
  · -- anything else: empty code
    simp only [Except.ok.injEq] at hok
    subst hok
    simp

theorem styles_peel (style : List Str) (h : ∀ c ∈ style, c ∈ fixedStyleCodes) (s : Str) :
    remove_ansi (style.flatten ++ s) = remove_ansi s := by
  induction style with
  | nil => simp
  | cons c st ih =>
      have hc : c ∈ fixedStyleCodes := h c (by simp)
      have hrest : ∀ d ∈ st, d ∈ fixedStyleCodes := fun d hd => h d (by simp [hd])
      simp only [List.flatten_cons, List.append_assoc]
      have : remove_ansi (c ++ (st.flatten ++ s)) = remove_ansi (st.flatten ++ s) := by
        simp only [fixedStyleCodes, List.mem_cons, List.not_mem_nil, or_false] at hc
        rcases hc with rfl | rfl | rfl | rfl | rfl <;> exact escSgr_peel _ _
      rw [this, ih hrest]

/-- Stripping the colorized segment text gives exactly the stripped value:
the color and style escapes and the final reset are all removed. -/
theorem colorize_strip (v : Str) (color : List (PyVal × PyVal)) (style : List Str)
    (out : Str) (hok : colorize v color style = .ok out)
    (hcol : colorDictOkB color = true)
    (hsty : ∀ c ∈ style, c ∈ fixedStyleCodes) :
    remove_ansi out = remove_ansi v := by
  unfold colorize at hok
  rcases ebind_ok _ _ _ hok with ⟨fgc, hfgc, hok⟩
  rcases ebind_ok _ _ _ hok with ⟨bgc, hbgc, hok⟩
  simp only [Except.ok.injEq] at hok
  subst hok
  simp only [colorDictOkB, Bool.and_eq_true] at hcol
  rw [List.append_assoc, List.append_assoc, List.append_assoc]
  rw [sideCode_peel true _ _ hfgc hcol.1]
  rw [sideCode_peel false _ _ hbgc hcol.2]
  rw [styles_peel style hsty]
  exact remove_ansi_append_reset v

/-! ## The style list only ever grows by the five fixed codes -/

theorem mem_ite_single (cond : Bool) (x c : Str) (h : c ∈ (if cond then [x] else [])) :
    c = x := by
  cases cond <;> simp at h
  exact h

theorem styleBlock_inv (pv : PyVal) (style style2 : List Str)
    (h : styleBlock pv style = .ok style2) :
    ∀ c ∈ style2, c ∈ style ∨ c ∈ fixedStyleCodes := by
  unfold styleBlock at h
  rcases ebind_ok _ _ _ h with ⟨m, _, h⟩
  rcases ebind_ok _ _ _ h with ⟨kvs, _, h⟩
  rcases ebind_ok _ _ _ h with ⟨b, _, h⟩
  rcases ebind_ok _ _ _ h with ⟨i, _, h⟩
  rcases ebind_ok _ _ _ h with ⟨u, _, h⟩
  rcases ebind_ok _ _ _ h with ⟨bl, _, h⟩
  rcases ebind_ok _ _ _ h with ⟨rv, _, h⟩
  simp only [Except.ok.injEq] at h
  subst h
  intro c hc
  simp only [List.append_assoc, List.mem_append] at hc
  rcases hc with hc | hc | hc | hc | hc | hc
  · exact Or.inl hc
  all_goals
    refine Or.inr ?_
    rw [mem_ite_single _ _ _ hc]
    decide

theorem dispatchParam_inv (lvl : Str) (segVal : PyVal) (width : Int)
    (pname pvalue : PyVal) (value : Str) (visible : Bool)
    (color : List (PyVal × PyVal)) (style : List Str)
    (v2 : Str) (vis2 : Bool) (col2 : List (PyVal × PyVal)) (sty2 : List Str)
    (ins : List PyVal)
    (h : dispatchParam lvl segVal width pname pvalue value visible color style
        = .ok (v2, vis2, col2, sty2, ins)) :
    ∀ c ∈ sty2, c ∈ style ∨ c ∈ fixedStyleCodes := by
  delta dispatchParam at h
  by_cases h0 : isStrEq pname (toL "align") = true
  · rw [if_pos h0] at h
    cases hB : alignBlock pvalue value with
    | error e =>
        rw [hB] at h
        exact Except.noConfusion h
    | ok x =>
        rw [hB] at h
        simp only [Except.ok.injEq, Prod.mk.injEq] at h
        intro c hc
        rw [← h.2.2.2.1] at hc
        exact Or.inl hc
  · rw [if_neg h0] at h
    by_cases h1 : isStrEq pname (toL "case") = true
    · rw [if_pos h1] at h
      cases hB : caseBlock pvalue value with
      | error e =>
          rw [hB] at h
          exact Except.noConfusion h
      | ok x =>
          rw [hB] at h
          simp only [Except.ok.injEq, Prod.mk.injEq] at h
          intro c hc
          rw [← h.2.2.2.1] at hc
          exact Or.inl hc
    · rw [if_neg h1] at h
      by_cases h2 : isStrEq pname (toL "filter") = true
      · rw [if_pos h2] at h
        cases hB : filterBlock pvalue value with
        | error e =>
            rw [hB] at h
            exact Except.noConfusion h
        | ok x =>
            rw [hB] at h
            simp only [Except.ok.injEq, Prod.mk.injEq] at h
            intro c hc
            rw [← h.2.2.2.1] at hc
            exact Or.inl hc
      · rw [if_neg h2] at h
        by_cases h3 : isStrEq pname (toL "affix") = true
        · rw [if_pos h3] at h
          cases hB : affixBlock pvalue value with
          | error e =>
              rw [hB] at h
              exact Except.noConfusion h
          | ok x =>
              rw [hB] at h
              simp only [Except.ok.injEq, Prod.mk.injEq] at h
              intro c hc
              rw [← h.2.2.2.1] at hc
              exact Or.inl hc
        · rw [if_neg h3] at h
          by_cases h4 : isStrEq pname (toL "truncate") = true
          · rw [if_pos h4] at h
            cases hB : truncateBlock pvalue value with
            | error e =>
                rw [hB] at h
                exact Except.noConfusion h
            | ok x =>
                rw [hB] at h
                simp only [Except.ok.injEq, Prod.mk.injEq] at h
                intro c hc
                rw [← h.2.2.2.1] at hc
                exact Or.inl hc
          · rw [if_neg h4] at h
            by_cases h5 : isStrEq pname (toL "visible") = true
            · rw [if_pos h5] at h
              cases hB : visibleBlock pvalue width visible with
              | error e =>
                  rw [hB] at h
                  exact Except.noConfusion h
              | ok x =>
                  rw [hB] at h
                  simp only [Except.ok.injEq, Prod.mk.injEq] at h
                  intro c hc
                  rw [← h.2.2.2.1] at hc
                  exact Or.inl hc
            · rw [if_neg h5] at h
              by_cases h6 : isStrEq pname (toL "color") = true
              · rw [if_pos h6] at h
                cases hB : colorBlock lvl segVal pvalue with
                | error e =>
                    rw [hB] at h
                    exact Except.noConfusion h
                | ok x =>
                    rw [hB] at h
                    simp only [Except.ok.injEq, Prod.mk.injEq] at h
                    intro c hc
                    rw [← h.2.2.2.1] at hc
                    exact Or.inl hc
              · rw [if_neg h6] at h
                by_cases h7 : isStrEq pname (toL "style") = true
                · rw [if_pos h7] at h
                  cases hB : styleBlock pvalue style with
                  | error e =>
                      rw [hB] at h
                      exact Except.noConfusion h
                  | ok st =>
                      rw [hB] at h
                      simp only [Except.ok.injEq, Prod.mk.injEq] at h
                      intro c hc
                      rw [← h.2.2.2.1] at hc
                      exact styleBlock_inv pvalue style st hB c hc
                · rw [if_neg h7] at h
                  by_cases h8 : isStrEq pname (toL "pad") = true
                  · rw [if_pos h8] at h
                    cases hB : padBlock pvalue value with
                    | error e =>
                        rw [hB] at h
                        exact Except.noConfusion h
                    | ok x =>
                        rw [hB] at h
                        simp only [Except.ok.injEq, Prod.mk.injEq] at h
                        intro c hc
                        rw [← h.2.2.2.1] at hc
                        exact Or.inl hc
                  · rw [if_neg h8] at h
                    by_cases h9 : isStrEq pname (toL "repeat") = true
                    · rw [if_pos h9] at h
                      cases hB : repeatBlock pvalue value with
                      | error e =>
                          rw [hB] at h
                          exact Except.noConfusion h
                      | ok x =>
                          rw [hB] at h
                          simp only [Except.ok.injEq, Prod.mk.injEq] at h
                          intro c hc
                          rw [← h.2.2.2.1] at hc
                          exact Or.inl hc
                    · rw [if_neg h9] at h
                      by_cases h10 : isStrEq pname (toL "if") = true
                      · rw [if_pos h10] at h
                        cases hB : ifBlock pvalue width with
                        | error e =>
                            rw [hB] at h
                            exact Except.noConfusion h
                        | ok x =>
                            rw [hB] at h
                            simp only [Except.ok.injEq, Prod.mk.injEq] at h
                            intro c hc
                            rw [← h.2.2.2.1] at hc
                            exact Or.inl hc
                      · rw [if_neg h10] at h
                        simp only [Except.ok.injEq, Prod.mk.injEq] at h
                        intro c hc
                        rw [← h.2.2.2.1] at hc
                        exact Or.inl hc

theorem applyOneParam_inv (lvl : Str) (segVal : PyVal) (width : Int) (parameter : PyVal)
    (value : Str) (visible : Bool) (color : List (PyVal × PyVal)) (style : List Str)
    (v2 : Str) (vis2 : Bool) (col2 : List (PyVal × PyVal)) (sty2 : List Str)
    (ins : List PyVal)
    (h : applyOneParam lvl segVal width parameter value visible color style
        = .ok (v2, vis2, col2, sty2, ins)) :
    ∀ c ∈ sty2, c ∈ style ∨ c ∈ fixedStyleCodes := by
  unfold applyOneParam at h
  rcases ebind_ok _ _ _ h with ⟨kvs, _, h⟩
  split at h
  · simp at h
  · split at h
    · simp at h
    · exact dispatchParam_inv _ _ _ _ _ _ _ _ _ _ _ _ _ _ h

theorem applyParams_style_inv (lvl : Str) (segVal : PyVal) (width : Int) :
    ∀ fuel params i value visible color (style : List Str) v2 vis2 col2 sty2,
      applyParams lvl segVal width fuel params i value visible color style
        = .ok (v2, vis2, col2, sty2) →
      ∀ c ∈ sty2, c ∈ style ∨ c ∈ fixedStyleCodes := by
  intro fuel
  induction fuel with
  | zero => intro params i value visible color style v2 vis2 col2 sty2 h; simp [applyParams] at h
  | succ fuel ih =>
      intro params i value visible color style v2 vis2 col2 sty2 h
      simp only [applyParams] at h
      cases hg : params.get? i with
      | none =>
          simp only [hg] at h
          simp only [Except.ok.injEq, Prod.mk.injEq] at h
          intro c hc
          rw [← h.2.2.2] at hc
          exact Or.inl hc
      | some parameter =>
          simp only [hg] at h
          cases hap : applyOneParam lvl segVal width parameter value visible color style with
          | error e =>
              rw [hap] at h
              exact Except.noConfusion h
          | ok r =>
              obtain ⟨v3, vis3, col3, sty3, ins3⟩ := r
              simp only [hap] at h
              intro c hc
              rcases ih _ _ _ _ _ _ _ _ _ _ h c hc with h1 | h1
              · exact applyOneParam_inv lvl segVal width parameter value visible color style
                  v3 vis3 col3 sty3 ins3 hap c h1
              · exact Or.inr h1

/-! ## The per-segment prompt-length theorem -/

/-- A segment whose `"value"` entry is not the string `"timestamp"` (the
static/template distinction does not matter: the timestamp branch of the
accounting triggers on the value alone). -/
def segNotTimestampB (segment : PyVal) : Bool :=
  match segment with
  | .dict kvs =>
      match dictGetS kvs (toL "value") with
      | some v => !isStrEq v (toL "timestamp")
      | Option.none => true
  | _ => true

theorem asDict_ok (v : PyVal) (kvs : List (PyVal × PyVal)) (h : asDict v = .ok kvs) :
    v = .dict kvs := by
  cases v <;> simp [asDict] at h
  rw [h]

theorem dictIndex_ok (kvs : List (PyVal × PyVal)) (k : String) (v : PyVal)
    (h : dictIndex kvs k = .ok v) : dictGetS kvs (toL k) = some v := by
  unfold dictIndex at h
  cases hg : dictGetS kvs (toL k) with
  | none => rw [hg] at h; exact Except.noConfusion h
  | some w =>
      rw [hg] at h
      simp only [Except.ok.injEq] at h
      rw [h]

theorem finishSegment_color (segVal : PyVal) (width : Int) (nowFull nowShortHM : Str)
    (value : Str) (visible : Bool) (color : List (PyVal × PyVal)) (style : List Str)
    (out : Str) (add : Nat) (col2 : List (PyVal × PyVal))
    (hok : finishSegment segVal width nowFull nowShortHM value visible color style
        = .ok (out, add, col2)) : col2 = color := by
  simp only [finishSegment] at hok
  cases hc : colorize (if visible then value else []) color style with
  | error e => rw [hc] at hok; exact Except.noConfusion hok
  | ok o =>
      rw [hc] at hok
      simp only [Except.ok.injEq, Prod.mk.injEq] at hok
      exact hok.2.2.symm

theorem finishSegment_exact (segVal : PyVal) (width : Int) (nowFull nowShortHM : Str)
    (value : Str) (visible : Bool) (color : List (PyVal × PyVal)) (style : List Str)
    (out : Str) (add : Nat) (col2 : List (PyVal × PyVal))
    (hok : finishSegment segVal width nowFull nowShortHM value visible color style
        = .ok (out, add, col2))
    (hts : isStrEq segVal (toL "timestamp") = false)
    (hcol : colorDictOkB color = true)
    (hsty : ∀ c ∈ style, c ∈ fixedStyleCodes) :
    (remove_ansi out).length = add := by
  simp only [finishSegment] at hok
  cases hc : colorize (if visible then value else []) color style with
  | error e => rw [hc] at hok; exact Except.noConfusion hok
  | ok o =>
      rw [hc] at hok
      simp only [Except.ok.injEq, Prod.mk.injEq] at hok
      obtain ⟨ho, hadd, _⟩ := hok
      subst ho
      rw [colorize_strip _ _ _ _ hc hcol hsty]
      rw [← hadd]
      simp [hts]

/-- Claim C1, amended: for every segment other than the timestamp one,
the amount added to the prompt-length accumulator equals the number of
visible characters of the segment's emitted text (provided any explicit
RGB color directive kept nonnegative components, so that its escape
sequence really is an escape sequence). -/
theorem processSegment_prompt_exact (lvl : Str) (width : Int) (nowFull nowShortHM : Str)
    (fuel : Nat) (context : List (PyVal × PyVal)) (segment : PyVal)
    (out : Str) (add : Nat) (col : List (PyVal × PyVal))
    (hok : processSegment lvl width nowFull nowShortHM fuel context segment
        = .ok (out, add, col))
    (hts : segNotTimestampB segment = true)
    (hcol : colorDictOkB col = true) :
    (remove_ansi out).length = add := by
  unfold processSegment at hok
  rcases ebind_ok _ _ _ hok with ⟨segKvs, hkvs, hok⟩
  rcases ebind_ok _ _ _ hok with ⟨stype, hstype, hok⟩
  rcases ebind_ok _ _ _ hok with ⟨segVal, hsegval, hok⟩
  have hseg : segment = .dict segKvs := asDict_ok _ _ hkvs
  have hts2 : isStrEq segVal (toL "timestamp") = false := by
    subst hseg
    simp only [segNotTimestampB] at hts
    rw [dictIndex_ok _ _ _ hsegval] at hts
    simpa using hts
  by_cases hst : (!isStrEq stype (toL "template")) = true
  · rw [if_pos hst] at hok
    have hcol0 : col = [] :=
      finishSegment_color _ _ _ _ _ _ _ _ _ _ _ hok
    refine finishSegment_exact _ _ _ _ _ _ _ _ _ _ _ hok hts2 ?_ ?_
    · decide
    · intro c hc
      simp at hc
  · rw [if_neg hst] at hok
    rcases ebind_ok _ _ _ hok with ⟨params, hparams, hok⟩
    rcases ebind_ok _ _ _ hok with ⟨r, happ, hok⟩
    obtain ⟨v, vis, col3, sty⟩ := r
    have hcoleq : col = col3 :=
      finishSegment_color _ _ _ _ _ _ _ _ _ _ _ hok
    refine finishSegment_exact _ _ _ _ _ _ _ _ _ _ _ hok hts2 ?_ ?_
    · rw [← hcoleq]; exact hcol
    · intro c hc
      rcases applyParams_style_inv lvl segVal width fuel params 0 _ true [] [] v vis col3 sty
        happ c hc with h1 | h1
      · simp at h1
      · exact h1

/-! ## Remaining helper lemmas for the claims -/

def exceptIsError {α : Type} : Except String α → Bool
  | .error _ => true
  | .ok _ => false

theorem return_values_mismatch (v d : PyVal) (h : ptype v ≠ ptype d) :
    return_values v d = .error "Exception: value must be of the type of the default" := by
  simp [return_values, h]

theorem alignBlock_mismatch (v : PyVal) (value : Str) (h : ptype v ≠ PType.dict) :
    alignBlock v value = .error "Exception: value must be of the type of the default" := by
  unfold alignBlock
  rw [return_values_mismatch v _ (by simpa using h)]
  rfl

theorem dispatch_align_mismatch (lvl : Str) (segVal : PyVal) (width : Int) (v : PyVal)
    (value : Str) (visible : Bool) (color : List (PyVal × PyVal)) (style : List Str)
    (h : ptype v ≠ PType.dict) :
    dispatchParam lvl segVal width (strV "align") v value visible color style
      = .error "Exception: value must be of the type of the default" := by
  delta dispatchParam
  rw [if_pos (by decide), alignBlock_mismatch v value h]

theorem applyParams_one_err (lvl : Str) (segVal : PyVal) (width : Int) (f : Nat)
    (ps : List PyVal) (i : Nat) (p : PyVal) (value : Str) (visible : Bool)
    (color : List (PyVal × PyVal)) (style : List Str) (e : String)
    (hp : ps.get? i = some p)
    (hone : applyOneParam lvl segVal width p value visible color style = .error e) :
    applyParams lvl segVal width (f + 1) ps i value visible color style = .error e := by
  simp only [applyParams, hp, hone]

theorem filter_include_dichotomy (cs : Bool) (items : List Str) (repl v : Str) :
    filter_include cs items repl v = v ∨ filter_include cs items repl v = repl := by
  induction items generalizing v with
  | nil => exact Or.inl rfl
  | cons it its ih =>
      unfold filter_include at ih ⊢
      simp only [List.foldl_cons]
      by_cases hocc : isSubstr (filterNorm cs it) (filterNorm cs v) = true
      · rw [if_pos hocc]
        exact ih v
      · rw [if_neg hocc]
        rcases ih repl with h | h
        · exact Or.inr h
        · exact Or.inr h

theorem filter_include_all_occur (cs : Bool) (items : List Str) (repl v : Str)
    (h : ∀ it ∈ items, isSubstr (filterNorm cs it) (filterNorm cs v) = true) :
    filter_include cs items repl v = v := by
  induction items with
  | nil => rfl
  | cons it its ih =>
      unfold filter_include at ih ⊢
      simp only [List.foldl_cons]
      rw [if_pos (h it (by simp))]
      exact ih (fun x hx => h x (by simp [hx]))

/-- Once the include loop has replaced the value, it keeps the replace string:
both branches of the step yield the replace string again. -/
theorem filter_include_absorb (cs : Bool) (items : List Str) (repl : Str) :
    filter_include cs items repl repl = repl := by
  induction items with
  | nil => rfl
  | cons it its ih =>
      unfold filter_include at ih ⊢
      simp only [List.foldl_cons]
      by_cases h : isSubstr (filterNorm cs it) (filterNorm cs repl) = true
      · rw [if_pos h]
        exact ih
      · rw [if_neg h]
        exact ih

/-- When some listed item does not occur in the (normalized) original value,
the include loop ends at the replace string: tests run against the evolving
value, but the value stays the original one until the first failing test, and
after the replacement it is absorbed. -/
theorem filter_include_one_absent (cs : Bool) (items : List Str) (repl : Str) :
    ∀ v, (∃ it ∈ items, isSubstr (filterNorm cs it) (filterNorm cs v) = false) →
      filter_include cs items repl v = repl := by
  induction items with
  | nil =>
      intro v h
      rcases h with ⟨x, hx, _⟩
      simp at hx
  | cons it its ih =>
      intro v h
      unfold filter_include at ih ⊢
      simp only [List.foldl_cons]
      rcases h with ⟨x, hx, hfail⟩
      rcases List.mem_cons.1 hx with rfl | hx'
      · rw [if_neg (by simp [hfail])]
        exact filter_include_absorb cs its repl
      · by_cases hit : isSubstr (filterNorm cs it) (filterNorm cs v) = true
        · rw [if_pos hit]
          exact ih v ⟨x, hx', hfail⟩
        · rw [if_neg hit]
          exact filter_include_absorb cs its repl

theorem sanitizeValues_keys (tok : Str) (kvs : List (PyVal × PyVal)) :
    (sanitizeValues tok kvs).map Prod.fst = kvs.map Prod.fst := by
  induction kvs with
  | nil => rfl
  | cons kv rest ih =>
      rw [sanitizeValues]
      simp only [List.map_cons]
      rw [ih]

theorem colorQuant_floor (x : Nat) : colorQuant (x : Int) = ⌊(x : ℚ) * 5 / 255⌋ := by
  unfold colorQuant
  have h1 : (x : ℚ) * 5 / 255 = (((x : ℤ) * 5 : ℤ) : ℚ) / ((255 : ℕ) : ℚ) := by
    push_cast
    ring
  rw [h1, Rat.floor_intCast_div_natCast]
  have h2 : (0 : ℤ) ≤ (x : ℤ) * 5 := by positivity
  have h3 : (0 : ℤ) ≤ ((255 : ℕ) : ℤ) := by norm_num
  have := Int.div_eq_ediv h2 h3
  simpa using this

/-- Modelled from the spec's words (claim C9): the documented quantization
formula, with rounding to the nearest integer. -/
def claimedRgbIndex (r g b : Nat) : Int :=
  16 + 36 * round ((r : ℚ) * 5 / 255) + 6 * round ((g : ℚ) * 5 / 255)
    + round ((b : ℚ) * 5 / 255)

/-! ## The claims -/

/-- Log-line format of the claim C2 scenario: a static space, then a template
segment for the linenum key carrying a left-align directive of width 3. -/
def c2fmt : List PyVal :=
  [ .dict [(strV "type", strV "static"), (strV "value", strV " ")],
    .dict [(strV "type", strV "template"), (strV "value", strV "linenum"),
           (strV "parameters", .list [ .dict [(strV "align",
              .dict [(strV "alignment", strV "left"), (strV "width", .int 3),
                     (strV "fillchar", strV " ")])]])] ]

/-- Log-line format holding a single parameterless timestamp segment. -/
def c1fmt : List PyVal :=
  [ .dict [(strV "type", strV "template"), (strV "value", strV "timestamp"),
           (strV "parameters", .list [])] ]

/-- Template segment whose align parameter value is the integer 5 instead of
the dict of alignment options the directive expects. -/
def c4seg : PyVal :=
  .dict [(strV "type", strV "template"), (strV "value", strV "linenum"),
         (strV "parameters", .list [ .dict [(strV "align", .int 5)] ])]

/-- Claim C1 is refuted on a timestamp segment rendered blank: the context maps
timestamp to the cursor-forward escape, the emitted text has 0 visible
characters once escapes are removed, yet the prompt-length accumulator ends at
19, the length of the un-blanked timestamp representation. -/
theorem blank_timestamp_prompt_cex :
    ((parse_log_line 100 c1fmt [(strV "timestamp", strV "\x1b[19C")] (toL "info") 100
        (toL "2024-01-01 00:00:00") (toL "00:00:00")).toOption).map
      (fun p => ((remove_ansi p.1).length, p.2)) = some (0, 19) ∧ (0 : Nat) ≠ 19 :=
  ⟨by decide, by decide⟩

/-- Claim C1 amended witness: on the static one-space segment, which processes
to the space followed by the SGR reset, the visible length of the emitted text
is the 1 that the accumulator receives. -/
theorem processSegment_prompt_exact_witness :
    (remove_ansi (toL " " ++ ansiSgr 0)).length = 1 :=
  processSegment_prompt_exact (toL "info") 100 (toL "x") (toL "y") 10 []
    (.dict [(strV "type", strV "static"), (strV "value", strV " ")])
    (toL " " ++ ansiSgr 0) 1 [] (by rfl) (by rfl) (by rfl)

/-- Claim C2: the template of a static space and a linenum segment with a
left-align directive of width 3, in context linenum = 7 at terminal width 100,
renders to a line whose ANSI-stripped text is " 7  " with prompt length 4. -/
theorem c2_scenario_render :
    ((parse_log_line 100 c2fmt [(strV "linenum", strV "7")] (toL "info") 100
        (toL "2024-01-01 00:00:00") (toL "00:00:00")).toOption).map
      (fun p => (remove_ansi p.1, p.2)) = some (toL " 7  ", 4) := by decide

/-- Claim C3 witness: at text "ab cd ef" and width 5, the returned line "ab"
satisfies the soundness disjunction. -/
theorem wrap_text_sound_witness :
    ((visibleLen (toL "ab") : Int) ≤ 5) ∨
    (∃ line ∈ splitNl (toL "ab cd ef"), ∃ tok ∈ tokenize line,
      toL "ab" = pyRstrip tok ∧ 5 < (visibleLen tok : Int)) :=
  wrap_text_sound (toL "ab cd ef") 5 (by decide) (toL "ab") (by decide)

/-- Claim C4 is refuted by a template segment whose align parameter value is a
plain integer: processing the segment propagates the type-mismatch exception
instead of warning and substituting a default. -/
theorem align_param_error_cex :
    exceptIsError (processSegment (toL "info") 100 (toL "x") (toL "y") 100 [] c4seg)
      = true := by decide

/-- Claim C4, amended: whenever a template segment for the linenum key carries
an align parameter whose value is not a dict, processing the segment raises the
type-mismatch exception out of the render; there is no warn-and-use-default
fallback. -/
theorem processSegment_align_mismatch_raises (lvl : Str) (width : Int) (nF nS : Str)
    (f : Nat) (ctx : List (PyVal × PyVal)) (v : PyVal) (hv : ptype v ≠ PType.dict) :
    exceptIsError (processSegment lvl width nF nS (f + 1) ctx
      (.dict [(strV "type", strV "template"), (strV "value", strV "linenum"),
              (strV "parameters", .list [.dict [(strV "align", v)]])])) = true := by
  have hone : applyOneParam lvl (strV "linenum") width (.dict [(strV "align", v)])
      (pyStr ((pyDictGet ctx (strV "linenum")).getD (strV ""))) true [] []
      = .error "Exception: value must be of the type of the default" := by
    have hd := dispatch_align_mismatch lvl (strV "linenum") width v
      (pyStr ((pyDictGet ctx (strV "linenum")).getD (strV ""))) true [] [] hv
    exact hd
  have happ : applyParams lvl (strV "linenum") width (f + 1)
      [.dict [(strV "align", v)]] 0
      (pyStr ((pyDictGet ctx (strV "linenum")).getD (strV ""))) true [] []
      = .error "Exception: value must be of the type of the default" :=
    applyParams_one_err lvl (strV "linenum") width f
      [.dict [(strV "align", v)]] 0 (.dict [(strV "align", v)])
      (pyStr ((pyDictGet ctx (strV "linenum")).getD (strV ""))) true [] []
      "Exception: value must be of the type of the default" rfl hone
  have hps : processSegment lvl width nF nS (f + 1) ctx
      (.dict [(strV "type", strV "template"), (strV "value", strV "linenum"),
              (strV "parameters", .list [.dict [(strV "align", v)]])])
      = .error "Exception: value must be of the type of the default" := by
    have hred : processSegment lvl width nF nS (f + 1) ctx
        (.dict [(strV "type", strV "template"), (strV "value", strV "linenum"),
                (strV "parameters", .list [.dict [(strV "align", v)]])])
        = Except.bind (applyParams lvl (strV "linenum") width (f + 1)
            [.dict [(strV "align", v)]] 0
            (pyStr ((pyDictGet ctx (strV "linenum")).getD (strV ""))) true [] [])
            (fun r => finishSegment (strV "linenum") width nF nS
              r.1 r.2.1 r.2.2.1 r.2.2.2) := by
      rfl
    rw [hred, happ]
    rfl
  rw [hps]
  rfl

/-- Claim C4 amended witness: with the align value 7 (an int, not a dict),
processing the segment at fuel 100 indeed errors. -/
theorem processSegment_align_mismatch_raises_witness :
    exceptIsError (processSegment (toL "info") 100 (toL "x") (toL "y") (99 + 1) []
      (.dict [(strV "type", strV "template"), (strV "value", strV "linenum"),
              (strV "parameters", .list [.dict [(strV "align", PyVal.int 7)]])]))
      = true :=
  processSegment_align_mismatch_raises (toL "info") 100 (toL "x") (toL "y") 99 []
    (PyVal.int 7) (by decide)

/-- Claim C5, supporting fact for the code bug: sanitizing a bare unsupported
object yields the tag token followed by the raw repr text of the object, an
unquoted fragment that the downstream Python-source formatter is asked to
parse. -/
theorem sanitize_obj_tagged (tok r : Str) :
    sanitize_unsafe_objects tok (.obj r) = .str (tok ++ r) := by
  rw [sanitize_unsafe_objects]

/-- Claim C6 is refuted with mode include, items a and b and value a: the value
contains the listed item a, yet the loop replaces it with X because b is
absent. -/
theorem filter_include_cex :
    filter_include false [toL "a", toL "b"] (toL "X") (toL "a") = toL "X" ∧
      toL "X" ≠ toL "a" := ⟨by decide, by decide⟩

/-- Claim C6, amended: with mode include, the value is left unchanged when
every listed item occurs in it (case-normalized per the flag), and as soon as
any single listed item is absent from the original value the whole value is
replaced by the replace string; the result is always either the original value
or the replace string. -/
theorem filter_include_amended (cs : Bool) (items : List Str) (repl v : Str) :
    ((∀ it ∈ items, isSubstr (filterNorm cs it) (filterNorm cs v) = true) →
        filter_include cs items repl v = v) ∧
      ((∃ it ∈ items, isSubstr (filterNorm cs it) (filterNorm cs v) = false) →
        filter_include cs items repl v = repl) ∧
      (filter_include cs items repl v = v ∨ filter_include cs items repl v = repl) :=
  ⟨filter_include_all_occur cs items repl v,
   filter_include_one_absent cs items repl v,
   filter_include_dichotomy cs items repl v⟩

/-- Claim C6 amended witness: the value ba contains the single listed item a,
so it is left unchanged; the value ca contains the listed item a but not the
listed item b, so it is replaced. -/
theorem filter_include_amended_witness :
    filter_include false [toL "a"] (toL "X") (toL "ba") = toL "ba" ∧
      filter_include false [toL "a", toL "b"] (toL "X") (toL "ca") = toL "X" :=
  ⟨(filter_include_amended false [toL "a"] (toL "X") (toL "ba")).1 (by decide),
   (filter_include_amended false [toL "a", toL "b"] (toL "X") (toL "ca")).2.1
     ⟨toL "b", by decide, by decide⟩⟩

/-- Claim C7 is refuted on the fully empty input: wrapping it yields zero
output lines, not the one line the claim demands. -/
theorem wrap_empty_input_cex :
    (wrap_text [] 10).length = 0 ∧ (0 : Nat) ≠ 1 := ⟨by decide, by decide⟩

/-- Claim C7, amended: an empty input line never produces an output line, even
when it is the whole input, and blank lines among several are likewise
dropped. -/
theorem wrap_empty_line_amended :
    (∀ width : Int, wrap_text [] width = []) ∧
      wrap_text (toL "a\n\nb") 10 = [toL "a", toL "b"] := by
  refine ⟨fun width => rfl, by decide⟩

/-- Claim C8 is refuted at the tag token given by two at-signs: sanitize maps
None to the tagged placeholder string, which is not None. -/
theorem sanitize_none_cex :
    sanitize_unsafe_objects (toL "@@") PyVal.none = .str (toL "@@None") ∧
      PyVal.str (toL "@@None") ≠ PyVal.none := by
  refine ⟨?_, fun h => PyVal.noConfusion h⟩
  rw [sanitize_unsafe_objects]
  rfl

/-- Claim C8, amended: for every tag token, sanitize maps None to the tagged
string obtained by appending the text None to the token; None is not passed
through as a primitive leaf. -/
theorem sanitize_none_tagged (tok : Str) :
    sanitize_unsafe_objects tok PyVal.none = .str (tok ++ toL "None") := by
  rw [sanitize_unsafe_objects]

/-- Claim C9 is refuted at the triple (128, 0, 0): the code emits palette index
88 while the round-to-nearest formula of the claim gives 124. -/
theorem rgb_round_cex :
    colorCode 128 0 0 = 88 ∧ claimedRgbIndex 128 0 0 = 124 ∧ (88 : Int) ≠ 124 := by
  refine ⟨by decide, ?_, by decide⟩
  unfold claimedRgbIndex
  norm_num [round_eq]

/-- Claim C9, amended: for every RGB triple of naturals the emitted palette
index truncates each scaled component, index = 16 plus 36 times the floor of
r times 5 over 255, plus 6 times the same of g, plus the same of b. -/
theorem colorCode_floor_formula (r g b : Nat) :
    colorCode (r : Int) (g : Int) (b : Int)
      = 16 + 36 * ⌊(r : ℚ) * 5 / 255⌋ + 6 * ⌊(g : ℚ) * 5 / 255⌋ + ⌊(b : ℚ) * 5 / 255⌋ := by
  unfold colorCode
  rw [colorQuant_floor r, colorQuant_floor g, colorQuant_floor b]

/-- Claim C10: sanitize rebuilds a dict by sanitizing the values only, keeping
every key of the mapping exactly as it was. -/
theorem sanitize_dict_keys (tok : Str) (kvs : List (PyVal × PyVal)) :
    sanitize_unsafe_objects tok (.dict kvs) = .dict (sanitizeValues tok kvs) ∧
      (sanitizeValues tok kvs).map Prod.fst = kvs.map Prod.fst :=
  ⟨by rw [sanitize_unsafe_objects], sanitizeValues_keys tok kvs⟩
